import Mathlib

/-!
Verification development for the `memo` persistent-memory CLI.

The TypeScript sources are shallowly embedded: pure post-processing of
database query results becomes pure Lean functions over explicit row lists;
JavaScript `Map` objects become insertion-ordered association lists with
overwrite-on-set semantics; JavaScript numbers are modelled as rationals;
the SQLite/sqlite-vec/FTS5 engines are external collaborators whose result
rows enter the embedded functions as explicit inputs (a KNN `k = N` query is
modelled as sort-by-distance-then-take, which is the documented contract of
the `vec0` virtual table).
-/

namespace Memo

/-! ### JavaScript `Map` model: insertion-ordered association list.
`mapSet` overwrites in place when the key exists (keeping its position) and
appends otherwise, exactly like `Map.prototype.set`; `mapGet` mirrors
`Map.prototype.get`. -/

def mapSet {β : Type} (m : List (String × β)) (k : String) (v : β) :
    List (String × β) :=
  match m with
  | [] => [(k, v)]
  | (k', v') :: rest =>
    if k' = k then (k, v) :: rest else (k', v') :: mapSet rest k v

def mapGet {β : Type} (m : List (String × β)) (k : String) : Option β :=
  match m with
  | [] => none
  | (k', v') :: rest => if k' = k then some v' else mapGet rest k

theorem mapGet_set_self {β : Type} (m : List (String × β)) (k : String) (v : β) :
    mapGet (mapSet m k v) k = some v := by
  induction m with
  | nil => simp [mapSet, mapGet]
  | cons hd tl ih =>
    obtain ⟨k', v'⟩ := hd
    by_cases h : k' = k
    · simp [mapSet, mapGet, h]
    · simp [mapSet, mapGet, h, ih]

theorem mapGet_set_ne {β : Type} (m : List (String × β)) (k k' : String) (v : β)
    (h : k ≠ k') : mapGet (mapSet m k v) k' = mapGet m k' := by
  induction m with
  | nil => simp [mapSet, mapGet, h]
  | cons hd tl ih =>
    obtain ⟨k₀, v₀⟩ := hd
    by_cases h₀ : k₀ = k
    · subst h₀
      simp [mapSet, mapGet, h]
    · simp [mapSet, mapGet, h₀, ih]

theorem mapGet_eq_none_iff {β : Type} (m : List (String × β)) (k : String) :
    mapGet m k = none ↔ k ∉ m.map Prod.fst := by
  induction m with
  | nil => simp [mapGet]
  | cons hd tl ih =>
    obtain ⟨k', v'⟩ := hd
    by_cases h : k' = k
    · simp [mapGet, h]
    · simp [mapGet, h, ih, Ne.symm h]

theorem mapGet_mem {β : Type} (m : List (String × β)) (k : String) (v : β)
    (h : mapGet m k = some v) : (k, v) ∈ m := by
  induction m with
  | nil => simp [mapGet] at h
  | cons hd tl ih =>
    obtain ⟨k', v'⟩ := hd
    by_cases h' : k' = k
    · subst h'
      simp [mapGet] at h
      subst h
      exact List.mem_cons_self _ _
    · simp only [mapGet, if_neg h'] at h
      exact List.mem_cons_of_mem _ (ih h)

theorem mem_keys_mapSet {β : Type} (m : List (String × β)) (k a : String) (v : β) :
    a ∈ (mapSet m k v).map Prod.fst ↔ a = k ∨ a ∈ m.map Prod.fst := by
  induction m with
  | nil => simp [mapSet]
  | cons hd tl ih =>
    obtain ⟨k', v'⟩ := hd
    by_cases hk : k' = k
    · subst hk
      simp [mapSet]
    · simp [mapSet, hk, ih]
      tauto

/-- Keys of an association list stay duplicate-free under `mapSet`. -/
theorem keysNodup_mapSet {β : Type} (m : List (String × β)) (k : String) (v : β)
    (h : (m.map Prod.fst).Nodup) : ((mapSet m k v).map Prod.fst).Nodup := by
  induction m with
  | nil => simp [mapSet]
  | cons hd tl ih =>
    obtain ⟨k', v'⟩ := hd
    simp only [List.map_cons, List.nodup_cons] at h
    by_cases hk : k' = k
    · subst hk
      simpa [mapSet] using h
    · have htl := ih h.2
      simp only [mapSet, hk, if_false, List.map_cons, List.nodup_cons]
      refine ⟨?_, htl⟩
      intro hmem
      rcases (mem_keys_mapSet tl k k' v).mp hmem with h1 | h1
      · exact hk h1
      · exact h.1 h1

/-! ### Configuration (src/config.ts)
`DEFAULTS` from config.ts; only the fields the verified components read. -/

structure Config where
  similarityThreshold : ℚ
  minVectorSimilarity : ℚ
  maxMemories : Nat
  deduplicationEnabled : Bool
  deduplicationSimilarityThreshold : ℚ
deriving Repr, DecidableEq

/-- The `DEFAULTS` object of src/config.ts:
similarityThreshold 0.5, minVectorSimilarity 0.6, maxMemories 10,
deduplicationEnabled true, deduplicationSimilarityThreshold 0.9. -/
def defaultConfig : Config :=
  { similarityThreshold := 1/2
    minVectorSimilarity := 3/5
    maxMemories := 10
    deduplicationEnabled := true
    deduplicationSimilarityThreshold := 9/10 }

/-! ### Row types.
`MemRow` is a row of the `memories` table (the columns the verified code
reads); `RawVec` is a row returned by a `vec_memories` KNN query
(`memory_id`, cosine `distance` of that row's embedding to the query
vector); `FtsRow` is a row of the `fts_memories` FTS5 table. -/

structure MemRow where
  id : String
  content : String
  containerTag : String
  tags : Option String := none
  type : Option String := none
  createdAt : Int := 0
deriving Repr, DecidableEq

structure RawVec where
  memoryId : String
  distance : ℚ
deriving Repr, DecidableEq

structure FtsRow where
  content : String
  memoryId : String
  containerTag : String
deriving Repr, DecidableEq

/-! ### Hybrid search (src/search.ts) -/

/-- Entry of `vectorResultMap`: 0-based rank in the gated vector list and
the raw cosine similarity `1 - distance`. -/
structure VectorResult where
  rank : Nat
  cosineSim : ℚ
deriving Repr, DecidableEq

structure SearchResult where
  id : String
  content : String
  similarity : ℚ
  createdAt : Int
deriving Repr, DecidableEq

/-- The RRF constant `RRF_K = 60` of src/search.ts. -/
def RRF_K : Nat := 60

/-- Loop of searchMemories lines 85–93: walk the raw KNN rows in order,
keep those with `1 - distance ≥ minVectorSim`, assigning consecutive
0-based ranks to the survivors. -/
def buildVectorMapGo (raw : List RawVec) (minVectorSim : ℚ) (rank : Nat)
    (acc : List (String × VectorResult)) : List (String × VectorResult) :=
  match raw with
  | [] => acc
  | r :: rest =>
    let cosineSim := 1 - r.distance
    if minVectorSim ≤ cosineSim then
      buildVectorMapGo rest minVectorSim (rank + 1)
        (mapSet acc r.memoryId ⟨rank, cosineSim⟩)
    else
      buildVectorMapGo rest minVectorSim rank acc

def buildVectorMap (raw : List RawVec) (minVectorSim : ℚ) :
    List (String × VectorResult) :=
  buildVectorMapGo raw minVectorSim 0 []

/-- `bm25Results.forEach((r, index) => bm25Rankings.set(r.memory_id, index))`.
Only the row order is used (the BM25 `rank` column is read and discarded),
so the input is the ordered list of returned `memory_id`s. -/
def buildBm25Go (rows : List String) (idx : Nat) (acc : List (String × Nat)) :
    List (String × Nat) :=
  match rows with
  | [] => acc
  | id :: rest => buildBm25Go rest (idx + 1) (mapSet acc id idx)

def buildBm25Rankings (rows : List String) : List (String × Nat) :=
  buildBm25Go rows 0 []

/-- `reciprocalRankFusion(vectorRankings, bm25Rankings, k)` from
src/search.ts lines 28–47. -/
def reciprocalRankFusion (vectorRankings bm25Rankings : List (String × Nat))
    (k : Nat := RRF_K) : List (String × ℚ) :=
  let scores := vectorRankings.foldl
    (fun acc p => mapSet acc p.1 (1 / ((k : ℚ) + (p.2 : ℚ)))) []
  bm25Rankings.foldl
    (fun acc p => mapSet acc p.1 ((mapGet acc p.1).getD 0 + 1 / ((k : ℚ) + (p.2 : ℚ))))
    scores

/-- The BM25 id list that actually feeds `bm25Rankings`: empty when no
query text (or blank text) was given, empty when the FTS5 `MATCH` query
threw (the `catch` branch of lines 117–123), otherwise the rows the FTS5
engine returned. -/
def effectiveBm25Rows (queryText : Option String)
    (ftsOutcome : Except String (List String)) : List String :=
  match queryText with
  | none => []
  | some t =>
    if 0 < t.trim.length then
      match ftsOutcome with
      | .ok rows => rows
      | .error _ => []
    else []

/-- The `WHERE id IN (...) [AND container_tag = ?]` fetch of searchMemories
lines 136–155: the `memories` rows whose id is among the fused candidates,
container-restricted when a scope is given. -/
def searchCandidateRows (rrfScores : List (String × ℚ))
    (containerTag : Option String) (memTable : List MemRow) : List MemRow :=
  let ids := rrfScores.map Prod.fst
  match containerTag with
  | some c => memTable.filter (fun r : MemRow => ids.contains r.id && r.containerTag == c)
  | none => memTable.filter (fun r : MemRow => ids.contains r.id)

/-- The per-row normalisation of searchMemories lines 160–193: RRF score
normalised against `2/k` when the row is in both lists, against `1/k` when
BM25-only, and the raw cosine similarity when vector-only. -/
def scoreRow (rrfScores : List (String × ℚ)) (bm25Rankings : List (String × Nat))
    (vectorResultMap : List (String × VectorResult)) (row : MemRow) : SearchResult :=
  let maxRrfScore : ℚ := 2 / (RRF_K : ℚ)
  let rrfScore := (mapGet rrfScores row.id).getD 0
  let inBm25 := (mapGet bm25Rankings row.id).isSome
  let vectorInfo := mapGet vectorResultMap row.id
  let similarity : ℚ :=
    if inBm25 && vectorInfo.isSome then
      min (rrfScore / maxRrfScore) 1
    else if inBm25 then
      min (rrfScore / (1 / (RRF_K : ℚ))) 1
    else
      match vectorInfo with
      | some v => v.cosineSim
      | none => 0
  { id := row.id, content := row.content, similarity,
    createdAt := row.createdAt }

/-- `searchMemories` (src/search.ts lines 58–200), from the point where the
external engines have answered: `raw` is the row list of the KNN query,
`ftsOutcome` the outcome of the FTS5 `MATCH` query (`.error` when it threw),
`memTable` the `memories` table (the `WHERE id IN (...) AND container_tag
= ?` fetch is a filter over it). -/
def searchMemories (cfg : Config) (raw : List RawVec)
    (containerTag : Option String) (queryText : Option String)
    (ftsOutcome : Except String (List String))
    (limit : Option Nat) (threshold : Option ℚ)
    (memTable : List MemRow) : List SearchResult :=
  let maxResults := limit.getD cfg.maxMemories
  let minSimilarity := threshold.getD cfg.similarityThreshold
  let minVectorSim := cfg.minVectorSimilarity
  let vectorResultMap := buildVectorMap raw minVectorSim
  let bm25Rankings := buildBm25Rankings (effectiveBm25Rows queryText ftsOutcome)
  let vectorRankings := vectorResultMap.map (fun p => (p.1, p.2.rank))
  let rrfScores := reciprocalRankFusion vectorRankings bm25Rankings
  if rrfScores.length = 0 then [] else
  let rows := searchCandidateRows rrfScores containerTag memTable
  let results := rows.map (scoreRow rrfScores bm25Rankings vectorResultMap)
  let sorted := results.insertionSort (fun a b : SearchResult => b.similarity ≤ a.similarity)
  (sorted.filter (fun r : SearchResult => minSimilarity ≤ r.similarity)).take maxResults

/-! ### Near-duplicate lookup (src/search.ts lines 206–240) and the
deduplication protocol (src/dedup.ts). -/

/-- The `vec0` KNN contract: a `WHERE embedding MATCH ? AND k = N ORDER BY
distance` query returns the `N` rows of smallest distance, ascending. -/
def knnQuery (vecTable : List RawVec) (k : Nat) : List RawVec :=
  (vecTable.insertionSort (fun a b => a.distance ≤ b.distance)).take k

/-- Loop of `findNearDuplicates`: for each KNN row in order, keep it when
`1 - distance ≥ threshold` and a `memories` row with this id and the
requested container tag exists. -/
def findNearDuplicatesGo (results : List RawVec) (memTable : List MemRow)
    (containerTag : String) (threshold : ℚ) : List (String × ℚ) :=
  match results with
  | [] => []
  | r :: rest =>
    let sim := 1 - r.distance
    let listRest := findNearDuplicatesGo rest memTable containerTag threshold
    if threshold ≤ sim then
      if (memTable.find? (fun m => m.id == r.memoryId && m.containerTag == containerTag)).isSome
      then (r.memoryId, sim) :: listRest
      else listRest
    else listRest

/-- `findNearDuplicates(queryVector, containerTag, threshold)`:
`vecTable` holds, for every row of `vec_memories`, the cosine distance of
its stored embedding to `queryVector` (the KNN `k = 5` query is the 5
smallest). -/
def findNearDuplicates (vecTable : List RawVec) (memTable : List MemRow)
    (containerTag : String) (threshold : ℚ) : List (String × ℚ) :=
  findNearDuplicatesGo (knnQuery vecTable 5) memTable containerTag threshold

structure DedupResult where
  isDuplicate : Bool
  reason : Option String := none
  existingId : Option String := none
  similarity : Option ℚ := none
deriving Repr, DecidableEq

/-- `findExactDuplicate(content, containerTag)` (db.ts):
`SELECT id FROM memories WHERE content = ? AND container_tag = ? LIMIT 1`. -/
def findExactDuplicate (memTable : List MemRow) (content containerTag : String) :
    Option String :=
  (memTable.find? (fun r => r.content == content && r.containerTag == containerTag)).map
    (fun r => r.id)

/-- `checkDuplicate(content, vector, containerTag)` (src/dedup.ts).
The candidate's embedding enters through `vecTable` (its distance to every
stored vector), exactly as in `findNearDuplicates`. -/
def checkDuplicate (cfg : Config) (vecTable : List RawVec)
    (memTable : List MemRow) (content containerTag : String) : DedupResult :=
  if !cfg.deduplicationEnabled then { isDuplicate := false }
  else
    match findExactDuplicate memTable content containerTag with
    | some exactId =>
      { isDuplicate := true, reason := some "exact duplicate",
        existingId := some exactId, similarity := some 1 }
    | none =>
      match findNearDuplicates vecTable memTable containerTag
          cfg.deduplicationSimilarityThreshold with
      | closest :: _ =>
        { isDuplicate := true, reason := some "near duplicate",
          existingId := some closest.1, similarity := some closest.2 }
      | [] => { isDuplicate := false }

/-! ### Store (db.ts): the three synchronised tables.
`DbState` holds the `memories` table, the `vec_memories` index (modelled by
its `memory_id` keys; the embedding blob plays no role in the synchronisation
claims) and the `fts_memories` table. -/

structure DbState where
  mem : List MemRow
  vec : List String
  fts : List FtsRow
deriving Repr, DecidableEq

def initDb : DbState := ⟨[], [], []⟩

/-- `insertMemory(record)` (db.ts lines 193–234): one `INSERT` into each of
`memories`, `vec_memories` and `fts_memories`. -/
def insertMemory (s : DbState) (r : MemRow) : DbState :=
  { mem := s.mem ++ [r]
    vec := s.vec ++ [r.id]
    fts := s.fts ++ [⟨r.content, r.id, r.containerTag⟩] }

/-- `deleteMemory(memoryId)` (db.ts lines 236–248): check existence in
`memories`; if present, `DELETE` the id from all three tables and return
true, else return false untouched. -/
def deleteMemory (s : DbState) (memoryId : String) : Bool × DbState :=
  if s.mem.any (fun r => r.id == memoryId) then
    (true,
      { mem := s.mem.filter (fun r => !(r.id == memoryId))
        vec := s.vec.filter (fun v => !(v == memoryId))
        fts := s.fts.filter (fun f => !(f.memoryId == memoryId)) })
  else (false, s)

/-- `reindexFts()` (db.ts lines 354–381): delete the FTS rows whose
`memory_id` no longer exists in `memories`, then insert an FTS row for every
memory missing from the (already cleaned) FTS table; return
`{added, removed}`. -/
def reindexFts (s : DbState) : DbState × Nat × Nat :=
  let memHas : String → Bool := fun mid => s.mem.any (fun m => m.id == mid)
  let orphaned := s.fts.filter (fun f => !(memHas f.memoryId))
  let afterRemove := s.fts.filter (fun f => memHas f.memoryId)
  let missing := s.mem.filter (fun m => !(afterRemove.any (fun f => f.memoryId == m.id)))
  let newFts := afterRemove ++ missing.map (fun m => (⟨m.content, m.id, m.containerTag⟩ : FtsRow))
  ({ s with fts := newFts }, missing.length, orphaned.length)

/-- Modelled from the spec: `replaceImportedChunksForSource` lives in the
current db.ts, which is not among the provided sources (only its callers in
cli.ts and the architecture notes are). Per the spec's replace-by-source
protocol: within a single transaction, delete every record whose
`(container_tag, source_key)` matches — from all three tables — then insert
the new record set; return `{deleted, inserted}`. The transaction is atomic
by construction in this pure model. -/
def replaceImportedChunksForSource (s : DbState) (containerTag sourceKey : String)
    (newRecords : List MemRow) : DbState × Nat × Nat :=
  let isMatch : MemRow → Bool :=
    fun r => r.containerTag == containerTag && r.tags == some sourceKey
  let deleted := s.mem.filter isMatch
  let deletedIds := deleted.map (fun r => r.id)
  let s1 : DbState :=
    { mem := s.mem.filter (fun r => !(isMatch r))
      vec := s.vec.filter (fun v => !(deletedIds.contains v))
      fts := s.fts.filter (fun f => !(deletedIds.contains f.memoryId)) }
  let s2 := newRecords.foldl insertMemory s1
  (s2, deleted.length, newRecords.length)

/-- One store operation, as issued by the CLI: an `insertMemory` whose id the
`memories` PRIMARY KEY accepts (a conflicting id would abort the statement),
or a `deleteMemory`. -/
inductive DbStep : DbState → DbState → Prop
  | insert (s : DbState) (r : MemRow) (hfresh : ∀ m ∈ s.mem, m.id ≠ r.id) :
      DbStep s (insertMemory s r)
  | delete (s : DbState) (memoryId : String) :
      DbStep s (deleteMemory s memoryId).2

/-- States reachable from the freshly initialised (empty) store. -/
def DbReachable (s : DbState) : Prop :=
  Relation.ReflTransGen DbStep initDb s

def memCount (s : DbState) (id : String) : Nat :=
  s.mem.countP (fun r => r.id == id)

def vecCount (s : DbState) (id : String) : Nat :=
  s.vec.countP (fun v => v == id)

def ftsCount (s : DbState) (id : String) : Nat :=
  s.fts.countP (fun f => f.memoryId == id)

/-! ### Identity (src/tags.ts and the named-container rule) -/

/-- `sha256(input)` of src/tags.ts:
`createHash("sha256").update(input).digest("hex").slice(0, 16)`.
The crypto primitive is an external black box and enters as the full hex
digest function `sha256hex`. -/
def sha256sliced (sha256hex : String → String) (input : String) : String :=
  String.mk ((sha256hex input).data.take 16)

/-- `getProjectTagInfo(directory).tag` (src/tags.ts lines 93–115):
`` `memo_project_${sha256(tagSource)}` `` where `tagSource` is the git
common directory when available, otherwise the directory itself. -/
def getProjectTag (sha256hex : String → String) (gitCommonDir : Option String)
    (directory : String) : String :=
  "memo_project_" ++ sha256sliced sha256hex (gitCommonDir.getD directory)

def isSlugChar (c : Char) : Bool :=
  ('a' ≤ c && c ≤ 'z') || ('0' ≤ c && c ≤ '9')

/-- Collapse every run of non-`[a-z0-9]` characters into a single `-`
(`replace(/[^a-z0-9]+/g, "-")`); `prevDash` remembers that the previous
character already produced the run's dash. -/
def slugCollapseGo (cs : List Char) (prevDash : Bool) : List Char :=
  match cs with
  | [] => []
  | c :: rest =>
    if isSlugChar c then c :: slugCollapseGo rest false
    else if prevDash then slugCollapseGo rest true
    else '-' :: slugCollapseGo rest true

/-- `replace(/^-+|-+$/g, "")`: trim leading and trailing dashes. -/
def trimDashes (l : List Char) : List Char :=
  (((l.dropWhile (fun c => c == '-')).reverse.dropWhile (fun c => c == '-'))).reverse

/-- Modelled from the spec: the named-container slug of
`getNamedContainerInfo` (the current tags.ts is not among the provided
sources; the spec and the architecture notes give
`trim(name).toLowerCase().replace(/[^a-z0-9]+/g, "-").replace(/^-+|-+$/g, "")`). -/
def slugify (name : String) : String :=
  let trimmed := ((name.data.dropWhile (fun c => c.isWhitespace)).reverse.dropWhile
    (fun c => c.isWhitespace)).reverse
  String.mk (trimDashes (slugCollapseGo (trimmed.map Char.toLower) false))

/-- Modelled from the spec: named container tag
`` `memo_container_${slug}` ``, rejecting an empty slug. -/
def getNamedContainerTag (name : String) : Option String :=
  let s := slugify name
  if s.isEmpty then none else some ("memo_container_" ++ s)

/-- `formatContainerLabel(containerTag, projectTag)` (src/cli.ts
lines 744–748). -/
def formatContainerLabel (containerTag projectTag : String) : String :=
  let p := "memo_container_".data
  if containerTag == projectTag then "(default)"
  else if containerTag.data.take p.length == p then
    String.mk (containerTag.data.drop p.length)
  else containerTag

/-! ### `memo add` (src/cli.ts cmdAdd): dedup-gated insert. -/

/-- One `memo add` invocation: the sanitised content, target container, the
generated id/timestamp, and the cosine distances the KNN extension reports
for the candidate's embedding against the current vector index. -/
structure AddOp where
  id : String
  content : String
  containerTag : String
  createdAt : Int := 0
  vecDistances : List RawVec := []

/-- cmdAdd lines 342–368: run `checkDuplicate`; skip the insert when it
reports a duplicate, otherwise `insertMemory` the new record. -/
def cmdAddStep (cfg : Config) (s : DbState) (op : AddOp) : DbState :=
  let dedup := checkDuplicate cfg op.vecDistances s.mem op.content op.containerTag
  if dedup.isDuplicate then s
  else insertMemory s
    { id := op.id, content := op.content, containerTag := op.containerTag,
      createdAt := op.createdAt }

def runAdds (cfg : Config) (s : DbState) (ops : List AddOp) : DbState :=
  ops.foldl (cmdAddStep cfg) s

/-- No two rows of the same container carry identical content. -/
def distinctContentsPerContainer (rows : List MemRow) : Prop :=
  rows.Pairwise (fun a b => a.containerTag = b.containerTag → a.content ≠ b.content)

instance (rows : List MemRow) : Decidable (distinctContentsPerContainer rows) := by
  unfold distinctContentsPerContainer
  exact List.instDecidablePairwise rows

/-! ### JSONC comment stripper (src/jsonc.ts) -/

/-- Length of the backslash run at the head of the reversed processed
prefix — the `while (j >= 0 && content[j] === "\\")` lookback of jsonc.ts. -/
def backslashRun : List Char → Nat
  | [] => 0
  | c :: rest => if c == '\\' then backslashRun rest + 1 else 0

/-- The character loop of `stripJsoncComments` (src/jsonc.ts lines 13–77).
`prevRev` is the already-consumed input, most recent character first (the
loop looks back at `content[j]`, `j < i`); the booleans are `inString`,
`inSingleLineComment`, `inMultiLineComment`. -/
def stripCommentsGo (prevRev rest : List Char)
    (inString inSingle inMulti : Bool) : List Char :=
  match rest with
  | [] => []
  | c :: tail =>
    if !inSingle && !inMulti && c == '"' then
      c :: stripCommentsGo (c :: prevRev) tail
        (if backslashRun prevRev % 2 = 0 then !inString else inString)
        inSingle inMulti
    else if inString then
      c :: stripCommentsGo (c :: prevRev) tail inString inSingle inMulti
    else if !inSingle && !inMulti && c == '/' && tail.head? == some '/' then
      stripCommentsGo ('/' :: c :: prevRev) tail.tail inString true inMulti
    else if !inSingle && !inMulti && c == '/' && tail.head? == some '*' then
      stripCommentsGo ('*' :: c :: prevRev) tail.tail inString inSingle true
    else if inSingle then
      if c == '\n' then
        c :: stripCommentsGo (c :: prevRev) tail inString false inMulti
      else stripCommentsGo (c :: prevRev) tail inString inSingle inMulti
    else if inMulti then
      if c == '*' && tail.head? == some '/' then
        stripCommentsGo ('/' :: c :: prevRev) tail.tail inString inSingle false
      else if c == '\n' then
        c :: stripCommentsGo (c :: prevRev) tail inString inSingle inMulti
      else stripCommentsGo (c :: prevRev) tail inString inSingle inMulti
    else
      c :: stripCommentsGo (c :: prevRev) tail inString inSingle inMulti
termination_by rest.length
decreasing_by
  all_goals simp [List.length_tail]
  all_goals omega

/-- Phase 1 of `stripJsoncComments`: the state-machine loop alone. -/
def stripComments (s : String) : String :=
  ⟨stripCommentsGo [] s.data false false false⟩

/-- Lookahead of the trailing-comma regex `/,\s*([}\x5d])/g` for the text
following a comma: skip whitespace; succeed on `}` or `]`, returning the
bracket and the remainder after it. -/
def rtcMatch : List Char → Option (Char × List Char)
  | [] => none
  | c :: rest =>
    if c == '}' || c == ']' then some (c, rest)
    else if c.isWhitespace then rtcMatch rest
    else none

theorem rtcMatch_length (l : List Char) (b : Char) (r : List Char)
    (h : rtcMatch l = some (b, r)) : r.length < l.length := by
  induction l with
  | nil => simp [rtcMatch] at h
  | cons c rest ih =>
    by_cases h1 : (c == '}' || c == ']') = true
    · simp [rtcMatch, h1] at h
      simp [h.2]
    · by_cases h2 : c.isWhitespace = true
      · simp only [rtcMatch, h1, if_false, h2, if_true] at h
        exact Nat.lt_trans (ih h) (by simp)
      · simp [rtcMatch, h1, h2] at h

/-- `result.replace(/,\s*([}\x5d])/g, "$1")`: left-to-right global rewrite;
each matched `,\s*` is dropped, the bracket kept, the scan continuing after
the bracket. -/
def removeTrailingCommasGo (l : List Char) : List Char :=
  match l with
  | [] => []
  | c :: rest =>
    if c == ',' then
      match hm : rtcMatch rest with
      | some (b, rest') => b :: removeTrailingCommasGo rest'
      | none => c :: removeTrailingCommasGo rest
    else c :: removeTrailingCommasGo rest
termination_by l.length
decreasing_by
  · have := rtcMatch_length rest b rest' hm
    simp
    omega
  · simp
  · simp

def removeTrailingCommas (s : String) : String :=
  ⟨removeTrailingCommasGo s.data⟩

/-- `stripJsoncComments(content)` (src/jsonc.ts lines 6–80): the comment
state machine followed by the trailing-comma rewrite. -/
def stripJsoncComments (s : String) : String :=
  removeTrailingCommas (stripComments s)

/-! ## Theorems -/

theorem effectiveBm25Rows_error (t e : String) :
    effectiveBm25Rows (some t) (.error e) = [] := by
  simp [effectiveBm25Rows]

theorem effectiveBm25Rows_ok_nil (t : String) :
    effectiveBm25Rows (some t) (.ok []) = [] := by
  simp [effectiveBm25Rows]

theorem effectiveBm25Rows_none (o : Except String (List String)) :
    effectiveBm25Rows none o = [] := by
  simp [effectiveBm25Rows]

/-- Claim C7: a failure of the full-text MATCH query is never fatal.
`searchMemories` catches the error and continues with the vector candidates
only: for every query text and every error, the outcome of the erroring call
is exactly the outcome with an empty full-text contribution — identical to
an FTS5 query that returned no rows, and to a search issued without query
text at all — so the gated vector candidates still flow through fusion,
normalisation and thresholding. (In the embedding, the external FTS5 call's
outcome is the `Except` argument; the `catch` branch of search.ts lines
117–123 is the `.error` case, and `searchMemories` is total on it.) -/
theorem searchMemories_ftsError_fallsBackToVectorOnly
    (cfg : Config) (raw : List RawVec) (containerTag : Option String)
    (t e : String) (limit : Option Nat) (threshold : Option ℚ)
    (memTable : List MemRow) :
    searchMemories cfg raw containerTag (some t) (.error e) limit threshold memTable
      = searchMemories cfg raw containerTag (some t) (.ok []) limit threshold memTable
    ∧ searchMemories cfg raw containerTag (some t) (.error e) limit threshold memTable
      = searchMemories cfg raw containerTag none (.ok []) limit threshold memTable := by
  constructor <;>
    simp only [searchMemories, effectiveBm25Rows_error, effectiveBm25Rows_ok_nil,
      effectiveBm25Rows_none]

theorem foldl_insertMemory_mem (recs : List MemRow) (s : DbState) :
    (recs.foldl insertMemory s).mem = s.mem ++ recs := by
  induction recs generalizing s with
  | nil => simp
  | cons r rest ih =>
    simp only [List.foldl_cons, ih, insertMemory]
    simp

/-- Claim C9: `reindexFts` is idempotent — after one application, a second
application finds nothing orphaned and nothing missing and returns
`{added := 0, removed := 0}`. -/
theorem reindexFts_idempotent (s : DbState) :
    (reindexFts (reindexFts s).1).2 = (0, 0) := by
  have hmem : (reindexFts s).1.mem = s.mem := rfl
  have hfts : (reindexFts s).1.fts
      = (s.fts.filter (fun f => s.mem.any (fun m => m.id == f.memoryId)))
        ++ ((s.mem.filter (fun m =>
            !((s.fts.filter (fun f => s.mem.any (fun m2 => m2.id == f.memoryId))).any
              (fun f => f.memoryId == m.id)))).map
          (fun m => (⟨m.content, m.id, m.containerTag⟩ : FtsRow))) := rfl
  have hall : ∀ f ∈ (reindexFts s).1.fts, s.mem.any (fun m => m.id == f.memoryId) = true := by
    intro f hf
    rw [hfts] at hf
    rcases List.mem_append.mp hf with hf | hf
    · exact (List.mem_filter.mp hf).2
    · rcases List.mem_map.mp hf with ⟨m, hm, rfl⟩
      have hm' := (List.mem_filter.mp hm).1
      exact List.any_eq_true.mpr ⟨m, hm', by simp⟩
  -- second pass: no orphans
  have horph : ((reindexFts s).1.fts.filter
      (fun f => !((reindexFts s).1.mem.any (fun m => m.id == f.memoryId)))) = [] := by
    rw [List.filter_eq_nil_iff]
    intro f hf
    rw [hmem]
    simp [hall f hf]
  -- second pass: the cleaned table is the whole table
  have hclean : ((reindexFts s).1.fts.filter
      (fun f => (reindexFts s).1.mem.any (fun m => m.id == f.memoryId))) = (reindexFts s).1.fts := by
    rw [List.filter_eq_self]
    intro f hf
    rw [hmem]
    exact hall f hf
  -- second pass: nothing missing
  have hmiss : ((reindexFts s).1.mem.filter (fun m =>
      !(((reindexFts s).1.fts.filter
          (fun f => (reindexFts s).1.mem.any (fun m2 => m2.id == f.memoryId))).any
        (fun f => f.memoryId == m.id)))) = [] := by
    rw [List.filter_eq_nil_iff]
    intro m hm
    rw [hclean]
    simp only [Bool.not_eq_true', Bool.not_eq_false]
    rw [hmem] at hm
    by_cases hcase : ((s.fts.filter (fun f => s.mem.any (fun m2 => m2.id == f.memoryId))).any
        (fun f => f.memoryId == m.id)) = true
    · rcases List.any_eq_true.mp hcase with ⟨f, hf, hfid⟩
      refine List.any_eq_true.mpr ⟨f, ?_, hfid⟩
      rw [hfts]
      exact List.mem_append.mpr (Or.inl hf)
    · refine List.any_eq_true.mpr ⟨⟨m.content, m.id, m.containerTag⟩, ?_, by simp⟩
      rw [hfts]
      refine List.mem_append.mpr (Or.inr ?_)
      refine List.mem_map.mpr ⟨m, ?_, rfl⟩
      refine List.mem_filter.mpr ⟨hm, ?_⟩
      simp only [Bool.not_eq_true']
      exact Bool.not_eq_true _ ▸ (by simpa using hcase)
  show ((((reindexFts s).1.mem.filter _).length, ((reindexFts s).1.fts.filter _).length) : Nat × Nat) = (0, 0)
  rw [horph, hmiss]
  simp

/-- A sequence of imports, each handing its fresh record set to the
replace-by-source protocol for the same `(containerTag, sourceKey)`. -/
def runImports (s : DbState) (tag sk : String) (imports : List (List MemRow)) :
    DbState :=
  imports.foldl (fun st recs => (replaceImportedChunksForSource st tag sk recs).1) s

theorem isMatch_filter_self (l : List MemRow) (p : MemRow → Bool) :
    (l.filter (fun r => !(p r))).filter p = [] := by
  rw [List.filter_filter]
  rw [List.filter_eq_nil_iff]
  intro a _
  simp

theorem notMatch_filter_idem (l : List MemRow) (p : MemRow → Bool) :
    (l.filter (fun r => !(p r))).filter (fun r => !(p r))
      = l.filter (fun r => !(p r)) := by
  rw [List.filter_filter]
  apply List.filter_congr
  intro a _
  simp

/-- Claim C3: the replace-by-source operation deletes every record matching
`(container_tag, source_key)` and inserts the new set, reporting
`{deleted, inserted}`; consequently, after any non-empty sequence of imports
for one source key, the stored records carrying that source key in the
target container are exactly the record set of the last import, and records
not carrying it are untouched. (The operation is a single pure state
transition here, which is the transactional all-or-nothing contract.) -/
theorem replaceImportedChunksForSource_snapshot (s : DbState) (tag sk : String) :
    (∀ recs : List MemRow,
      (replaceImportedChunksForSource s tag sk recs).1.mem
        = s.mem.filter (fun r => !(r.containerTag == tag && r.tags == some sk)) ++ recs
      ∧ (replaceImportedChunksForSource s tag sk recs).2.1
        = (s.mem.filter (fun r => r.containerTag == tag && r.tags == some sk)).length
      ∧ (replaceImportedChunksForSource s tag sk recs).2.2 = recs.length)
    ∧ (∀ (init : List (List MemRow)) (lastRecs : List MemRow),
      (∀ recs ∈ init ++ [lastRecs], ∀ r ∈ recs,
        r.containerTag = tag ∧ r.tags = some sk) →
      (runImports s tag sk (init ++ [lastRecs])).mem.filter
          (fun r => r.containerTag == tag && r.tags == some sk) = lastRecs
      ∧ (runImports s tag sk (init ++ [lastRecs])).mem.filter
          (fun r => !(r.containerTag == tag && r.tags == some sk))
        = s.mem.filter (fun r => !(r.containerTag == tag && r.tags == some sk))) := by
  have hsingle : ∀ (st : DbState) (recs : List MemRow),
      (replaceImportedChunksForSource st tag sk recs).1.mem
        = st.mem.filter (fun r => !(r.containerTag == tag && r.tags == some sk)) ++ recs := by
    intro st recs
    simp only [replaceImportedChunksForSource, foldl_insertMemory_mem]
  have hsplitA : ∀ (l recs : List MemRow) (p : MemRow → Bool),
      (∀ r ∈ recs, p r = true) →
      (l.filter (fun r => !(p r)) ++ recs).filter p = recs := by
    intro l recs p hr
    rw [List.filter_append, isMatch_filter_self, List.filter_eq_self.mpr hr,
      List.nil_append]
  have hsplitB : ∀ (l recs : List MemRow) (p : MemRow → Bool),
      (∀ r ∈ recs, p r = true) →
      (l.filter (fun r => !(p r)) ++ recs).filter (fun r => !(p r))
        = l.filter (fun r => !(p r)) := by
    intro l recs p hr
    have hnil : recs.filter (fun r => !(p r)) = [] :=
      List.filter_eq_nil_iff.mpr (fun a ha => by simp [hr a ha])
    rw [List.filter_append, notMatch_filter_idem, hnil, List.append_nil]
  constructor
  · intro recs
    refine ⟨hsingle s recs, ?_, ?_⟩ <;> simp [replaceImportedChunksForSource]
  · intro init lastRecs hall
    have hmatch : ∀ recs ∈ init ++ [lastRecs], ∀ r ∈ recs,
        (r.containerTag == tag && r.tags == some sk) = true := by
      intro recs hrecs r hr
      obtain ⟨h1, h2⟩ := hall recs hrecs r hr
      simp [h1, h2]
    clear hall
    induction init generalizing s with
    | nil =>
      have hmem := hsingle s lastRecs
      have hlast : ∀ r ∈ lastRecs,
          (fun r : MemRow => r.containerTag == tag && r.tags == some sk) r = true :=
        fun r hr => hmatch lastRecs (by simp) r hr
      have hrun : (runImports s tag sk ([] ++ [lastRecs])).mem
          = s.mem.filter
              (fun r => !(r.containerTag == tag && r.tags == some sk)) ++ lastRecs := by
        simp only [List.nil_append, runImports, List.foldl_cons, List.foldl_nil]
        exact hmem
      rw [hrun]
      exact ⟨hsplitA s.mem lastRecs _ hlast, hsplitB s.mem lastRecs _ hlast⟩
    | cons recs0 rest ih =>
      have hstep : runImports s tag sk ((recs0 :: rest) ++ [lastRecs])
          = runImports (replaceImportedChunksForSource s tag sk recs0).1 tag sk
            (rest ++ [lastRecs]) := by
        simp [runImports]
      have hmatch' : ∀ recs ∈ rest ++ [lastRecs], ∀ r ∈ recs,
          (r.containerTag == tag && r.tags == some sk) = true := by
        intro recs hrecs r hr
        exact hmatch recs (by simp at hrecs ⊢; tauto) r hr
      have hrecs0 : ∀ r ∈ recs0,
          (fun r : MemRow => r.containerTag == tag && r.tags == some sk) r = true :=
        fun r hr => hmatch recs0 (by simp) r hr
      have hih := ih (replaceImportedChunksForSource s tag sk recs0).1 hmatch'
      rw [hstep]
      refine ⟨hih.1, ?_⟩
      rw [hih.2, hsingle s recs0]
      exact hsplitB s.mem recs0 _ hrecs0

theorem findNearDuplicatesGo_mem (results : List RawVec) (memT : List MemRow)
    (tag : String) (thr : ℚ) (x : String × ℚ)
    (hx : x ∈ findNearDuplicatesGo results memT tag thr) :
    ∃ e ∈ results, x = (e.memoryId, 1 - e.distance) ∧ thr ≤ 1 - e.distance
      ∧ (memT.find? (fun m => m.id == e.memoryId && m.containerTag == tag)).isSome := by
  induction results with
  | nil => simp [findNearDuplicatesGo] at hx
  | cons r rest ih =>
    by_cases h1 : thr ≤ 1 - r.distance
    · by_cases h2 : (memT.find? (fun m => m.id == r.memoryId && m.containerTag == tag)).isSome = true
      · simp only [findNearDuplicatesGo, if_pos h1, if_pos h2, List.mem_cons] at hx
        rcases hx with hx | hx
        · exact ⟨r, by simp, hx, h1, h2⟩
        · rcases ih hx with ⟨e, he, hrest⟩
          exact ⟨e, List.mem_cons_of_mem _ he, hrest⟩
      · simp only [findNearDuplicatesGo, if_pos h1, if_neg h2] at hx
        rcases ih hx with ⟨e, he, hrest⟩
        exact ⟨e, List.mem_cons_of_mem _ he, hrest⟩
    · simp only [findNearDuplicatesGo, if_neg h1] at hx
      rcases ih hx with ⟨e, he, hrest⟩
      exact ⟨e, List.mem_cons_of_mem _ he, hrest⟩

theorem findNearDuplicatesGo_pairwise (results : List RawVec) (memT : List MemRow)
    (tag : String) (thr : ℚ)
    (h : results.Pairwise (fun a b => a.distance ≤ b.distance)) :
    (findNearDuplicatesGo results memT tag thr).Pairwise (fun a b => b.2 ≤ a.2) := by
  induction results with
  | nil => simp [findNearDuplicatesGo]
  | cons r rest ih =>
    rw [List.pairwise_cons] at h
    have hrest := ih h.2
    by_cases h1 : thr ≤ 1 - r.distance
    · by_cases h2 : (memT.find? (fun m => m.id == r.memoryId && m.containerTag == tag)).isSome = true
      · simp only [findNearDuplicatesGo, if_pos h1, if_pos h2]
        rw [List.pairwise_cons]
        refine ⟨?_, hrest⟩
        intro x hx
        rcases findNearDuplicatesGo_mem rest memT tag thr x hx with ⟨e, he, hxe, _, _⟩
        have : r.distance ≤ e.distance := h.1 e he
        rw [hxe]
        simp only
        linarith
      · simp only [findNearDuplicatesGo, if_pos h1, if_neg h2]
        exact hrest
    · simp only [findNearDuplicatesGo, if_neg h1]
      exact hrest

instance : IsTotal RawVec (fun a b => a.distance ≤ b.distance) :=
  ⟨fun a b => le_total a.distance b.distance⟩

instance : IsTrans RawVec (fun a b => a.distance ≤ b.distance) :=
  ⟨fun _ _ _ hab hbc => le_trans hab hbc⟩

theorem knnQuery_pairwise (vecTable : List RawVec) (k : Nat) :
    (knnQuery vecTable k).Pairwise (fun a b => a.distance ≤ b.distance) := by
  unfold knnQuery
  have hs : List.Sorted (fun a b : RawVec => a.distance ≤ b.distance)
      (vecTable.insertionSort (fun a b => a.distance ≤ b.distance)) :=
    List.sorted_insertionSort (fun a b : RawVec => a.distance ≤ b.distance) vecTable
  exact List.Pairwise.sublist (List.take_sublist _ _) hs

/-- Claim C2: the decision order and content of `checkDuplicate`:
disabled config short-circuits to not-duplicate; a byte-identical content in
the same container is reported as an exact duplicate with similarity 1.0 and
that record's id; otherwise the `k = 5` KNN lookup, gated at the dedup
threshold (default 0.9) and container-filtered only after the KNN, decides:
a surviving candidate list yields a near-duplicate carrying the head
candidate's id and similarity — and the head is the closest, its similarity
bounding every other survivor's — else not-duplicate. -/
theorem checkDuplicate_protocol (cfg : Config) (vecTable : List RawVec)
    (memTable : List MemRow) (content containerTag : String) :
    (cfg.deduplicationEnabled = false →
      checkDuplicate cfg vecTable memTable content containerTag
        = { isDuplicate := false })
    ∧ (cfg.deduplicationEnabled = true →
      ∀ exactId, findExactDuplicate memTable content containerTag = some exactId →
        checkDuplicate cfg vecTable memTable content containerTag
          = { isDuplicate := true, reason := some "exact duplicate",
              existingId := some exactId, similarity := some 1 }
        ∧ ∃ r ∈ memTable, r.id = exactId ∧ r.content = content
            ∧ r.containerTag = containerTag)
    ∧ (cfg.deduplicationEnabled = true →
      findExactDuplicate memTable content containerTag = none →
      ∀ closest rest,
        findNearDuplicates vecTable memTable containerTag
            cfg.deduplicationSimilarityThreshold = closest :: rest →
        checkDuplicate cfg vecTable memTable content containerTag
          = { isDuplicate := true, reason := some "near duplicate",
              existingId := some closest.1, similarity := some closest.2 }
        ∧ cfg.deduplicationSimilarityThreshold ≤ closest.2
        ∧ (∃ m ∈ memTable, m.id = closest.1 ∧ m.containerTag = containerTag)
        ∧ (∃ e ∈ knnQuery vecTable 5, closest = (e.memoryId, 1 - e.distance))
        ∧ ∀ x ∈ rest, x.2 ≤ closest.2)
    ∧ (cfg.deduplicationEnabled = true →
      findExactDuplicate memTable content containerTag = none →
      findNearDuplicates vecTable memTable containerTag
          cfg.deduplicationSimilarityThreshold = [] →
      checkDuplicate cfg vecTable memTable content containerTag
        = { isDuplicate := false })
    ∧ defaultConfig.deduplicationSimilarityThreshold = 9/10 := by
  refine ⟨?_, ?_, ?_, ?_, rfl⟩
  · intro hdis
    simp [checkDuplicate, hdis]
  · intro hen exactId hexact
    constructor
    · simp [checkDuplicate, hen, hexact]
    · rcases Option.map_eq_some'.mp hexact with ⟨row, hfind, hid⟩
      refine ⟨row, List.mem_of_find?_eq_some hfind, hid, ?_⟩
      have := List.find?_some hfind
      simp only [Bool.and_eq_true, beq_iff_eq] at this
      exact this
  · intro hen hexact closest rest hnear
    refine ⟨by simp [checkDuplicate, hen, hexact, hnear], ?_, ?_, ?_, ?_⟩
    · have hc : closest ∈ findNearDuplicates vecTable memTable containerTag
          cfg.deduplicationSimilarityThreshold := by
        rw [hnear]; exact List.mem_cons_self _ _
      rcases findNearDuplicatesGo_mem _ _ _ _ _ hc with ⟨e, _, hce, hthr, _⟩
      rw [hce]
      exact hthr
    · have hc : closest ∈ findNearDuplicates vecTable memTable containerTag
          cfg.deduplicationSimilarityThreshold := by
        rw [hnear]; exact List.mem_cons_self _ _
      rcases findNearDuplicatesGo_mem _ _ _ _ _ hc with ⟨e, _, hce, _, hfound⟩
      rcases Option.isSome_iff_exists.mp hfound with ⟨m, hm⟩
      have hmem := List.mem_of_find?_eq_some hm
      have hpred := List.find?_some hm
      simp only [Bool.and_eq_true, beq_iff_eq] at hpred
      exact ⟨m, hmem, by rw [hce]; exact hpred.1, hpred.2⟩
    · have hc : closest ∈ findNearDuplicates vecTable memTable containerTag
          cfg.deduplicationSimilarityThreshold := by
        rw [hnear]; exact List.mem_cons_self _ _
      rcases findNearDuplicatesGo_mem _ _ _ _ _ hc with ⟨e, he, hce, _, _⟩
      exact ⟨e, he, hce⟩
    · have hpw := findNearDuplicatesGo_pairwise (knnQuery vecTable 5) memTable
        containerTag cfg.deduplicationSimilarityThreshold
        (knnQuery_pairwise vecTable 5)
      rw [show findNearDuplicatesGo (knnQuery vecTable 5) memTable containerTag
          cfg.deduplicationSimilarityThreshold
          = findNearDuplicates vecTable memTable containerTag
              cfg.deduplicationSimilarityThreshold from rfl, hnear,
        List.pairwise_cons] at hpw
      exact hpw.1
  · intro hen hexact hnone
    simp [checkDuplicate, hen, hexact, hnone]

/-- Claim C10: because `findNearDuplicates` asks the KNN index for only the
5 globally nearest vectors and container-filters afterwards, there is a
database state in which `checkDuplicate` (dedup enabled, no exact match)
answers not-duplicate although a record of the candidate's own container
sits at cosine similarity above the dedup threshold — here 5 records of a
different container are all closer than the in-container near-duplicate. -/
theorem checkDuplicate_knn_container_blindness :
    ∃ (vecTable : List RawVec) (memTable : List MemRow) (content tag : String),
      (checkDuplicate defaultConfig vecTable memTable content tag).isDuplicate = false
      ∧ (∀ r ∈ memTable, ¬(r.content = content ∧ r.containerTag = tag))
      ∧ ∃ m ∈ memTable, m.containerTag = tag
        ∧ ∃ e ∈ vecTable, e.memoryId = m.id
          ∧ defaultConfig.deduplicationSimilarityThreshold ≤ 1 - e.distance
          ∧ ∃ others : List RawVec, others.length = 5
            ∧ ∀ v ∈ others, v ∈ vecTable ∧ v.distance < e.distance
              ∧ ∀ r ∈ memTable, r.id = v.memoryId → r.containerTag ≠ tag := by
  refine ⟨[⟨"o1", 1/100⟩, ⟨"o2", 2/100⟩, ⟨"o3", 3/100⟩, ⟨"o4", 4/100⟩,
      ⟨"o5", 5/100⟩, ⟨"m6", 6/100⟩],
    [{ id := "o1", content := "x1", containerTag := "c2" },
     { id := "o2", content := "x2", containerTag := "c2" },
     { id := "o3", content := "x3", containerTag := "c2" },
     { id := "o4", content := "x4", containerTag := "c2" },
     { id := "o5", content := "x5", containerTag := "c2" },
     { id := "m6", content := "existing", containerTag := "c1" }],
    "new content", "c1", ?_, ?_, ?_⟩
  · norm_num +decide [checkDuplicate, findExactDuplicate, findNearDuplicates, knnQuery,
      findNearDuplicatesGo, List.insertionSort, List.orderedInsert, defaultConfig]
  · decide
  · refine ⟨{ id := "m6", content := "existing", containerTag := "c1" }, by simp, rfl,
      ⟨"m6", 6/100⟩, by simp, rfl, by norm_num [defaultConfig],
      [⟨"o1", 1/100⟩, ⟨"o2", 2/100⟩, ⟨"o3", 3/100⟩, ⟨"o4", 4/100⟩, ⟨"o5", 5/100⟩],
      rfl, ?_⟩
    intro v hv
    fin_cases hv <;> exact ⟨by simp, by norm_num, by decide⟩

theorem findExactDuplicate_eq_none_iff (memT : List MemRow) (content tag : String) :
    findExactDuplicate memT content tag = none
      ↔ ∀ r ∈ memT, ¬(r.content = content ∧ r.containerTag = tag) := by
  unfold findExactDuplicate
  rw [Option.map_eq_none', List.find?_eq_none]
  constructor
  · intro h r hr
    have := h r hr
    simp only [Bool.and_eq_true, beq_iff_eq] at this
    tauto
  · intro h r hr
    have := h r hr
    simp only [Bool.and_eq_true, beq_iff_eq]
    tauto

theorem checkDuplicate_false_no_exact (cfg : Config) (vecT : List RawVec)
    (memT : List MemRow) (content tag : String)
    (hen : cfg.deduplicationEnabled = true)
    (h : (checkDuplicate cfg vecT memT content tag).isDuplicate = false) :
    findExactDuplicate memT content tag = none := by
  cases hfe : findExactDuplicate memT content tag with
  | none => rfl
  | some eid =>
    rw [checkDuplicate, hen] at h
    simp [hfe] at h

theorem cmdAddStep_preserves_distinct (cfg : Config)
    (hen : cfg.deduplicationEnabled = true) (s : DbState) (op : AddOp)
    (h : distinctContentsPerContainer s.mem) :
    distinctContentsPerContainer (cmdAddStep cfg s op).mem := by
  unfold cmdAddStep
  cases hd : (checkDuplicate cfg op.vecDistances s.mem op.content op.containerTag).isDuplicate with
  | true => simpa [hd] using h
  | false =>
    simp only [hd, Bool.false_eq_true, if_false]
    have hexact := checkDuplicate_false_no_exact cfg op.vecDistances s.mem
      op.content op.containerTag hen hd
    rw [findExactDuplicate_eq_none_iff] at hexact
    unfold distinctContentsPerContainer insertMemory
    simp only
    rw [List.pairwise_append]
    refine ⟨h, by simp, ?_⟩
    intro a ha b hb
    simp only [List.mem_singleton] at hb
    subst hb
    intro htag hcontent
    exact hexact a ha ⟨hcontent, htag⟩

/-- Claim C6 (amended): while deduplication is enabled, record contents stay
pairwise distinct per container across any sequence of `memo add`
operations, because an insert only happens when `checkDuplicate` reported
no duplicate, which requires the exact-content lookup in the target
container to have found nothing. (With deduplication disabled the guard is
bypassed — see the counterexample.) -/
theorem runAdds_distinctContentsPerContainer (cfg : Config)
    (hen : cfg.deduplicationEnabled = true) (s : DbState)
    (hs : distinctContentsPerContainer s.mem) (ops : List AddOp) :
    distinctContentsPerContainer (runAdds cfg s ops).mem := by
  induction ops generalizing s with
  | nil => simpa [runAdds] using hs
  | cons op rest ih =>
    have hstep := cmdAddStep_preserves_distinct cfg hen s op hs
    have : runAdds cfg s (op :: rest) = runAdds cfg (cmdAddStep cfg s op) rest := by
      simp [runAdds]
    rw [this]
    exact ih _ hstep

/-- Counterexample to claim C6 as stated: with `deduplicationEnabled` set to
false in the config, two `memo add` operations with byte-identical content
in the same container both insert, and the store ends with two records of
identical content in one container. -/
theorem runAdds_duplicate_when_dedup_disabled :
    ¬ distinctContentsPerContainer
      (runAdds { defaultConfig with deduplicationEnabled := false } initDb
        [{ id := "a1", content := "same", containerTag := "c" },
         { id := "a2", content := "same", containerTag := "c" }]).mem := by
  decide

theorem head?_dropWhile_false {α : Type} (p : α → Bool) (l : List α) (a : α)
    (h : (l.dropWhile p).head? = some a) : p a = false := by
  induction l with
  | nil => simp [List.dropWhile] at h
  | cons c rest ih =>
    by_cases hc : p c = true
    · rw [List.dropWhile_cons_of_pos hc] at h
      exact ih h
    · rw [List.dropWhile_cons_of_neg hc] at h
      simp only [List.head?_cons, Option.some.injEq] at h
      subst h
      exact Bool.not_eq_true _ ▸ hc

theorem slugCollapseGo_chars (cs : List Char) (b : Bool) :
    ∀ c ∈ slugCollapseGo cs b, isSlugChar c = true ∨ c = '-' := by
  induction cs generalizing b with
  | nil => simp [slugCollapseGo]
  | cons c rest ih =>
    intro x hx
    by_cases hc : isSlugChar c = true
    · rw [slugCollapseGo, if_pos hc] at hx
      rcases List.mem_cons.mp hx with h | h
      · left; rw [h]; exact hc
      · exact ih false x h
    · rw [slugCollapseGo, if_neg hc] at hx
      by_cases hb : b = true
      · rw [if_pos hb] at hx
        exact ih true x hx
      · rw [if_neg hb] at hx
        rcases List.mem_cons.mp hx with h | h
        · right; exact h
        · exact ih true x h

theorem trimDashes_head? (l : List Char) : (trimDashes l).head? ≠ some '-' := by
  unfold trimDashes
  set d1 := l.dropWhile (fun c => c == '-') with hd1
  set r := d1.reverse.dropWhile (fun c => c == '-') with hr
  obtain ⟨t, ht⟩ := List.dropWhile_suffix (l := d1.reverse) (fun c => c == '-')
  intro hcontra
  cases hrev : r.reverse with
  | nil => simp [hrev] at hcontra
  | cons a as =>
    rw [hrev] at hcontra
    simp only [List.head?_cons, Option.some.injEq] at hcontra
    subst hcontra
    have hd1eq : d1 = '-' :: as ++ t.reverse := by
      have : d1 = (t ++ r).reverse := by rw [ht]; simp
      rw [this, List.reverse_append, hrev]
    have := head?_dropWhile_false (fun c => c == '-') l '-' (by rw [← hd1, hd1eq]; simp)
    simp at this

theorem trimDashes_getLast? (l : List Char) : (trimDashes l).getLast? ≠ some '-' := by
  unfold trimDashes
  rw [List.getLast?_reverse]
  intro hcontra
  have := head?_dropWhile_false (fun c => c == '-') _ _ hcontra
  simp at this

theorem trimDashes_mem (l : List Char) (c : Char) (h : c ∈ trimDashes l) : c ∈ l := by
  unfold trimDashes at h
  rw [List.mem_reverse] at h
  have h1 := (List.dropWhile_suffix (fun c => c == '-')).subset h
  rw [List.mem_reverse] at h1
  exact (List.dropWhile_suffix (fun c => c == '-')).subset h1

/-- Claim C5 (amended): the two container-tag shapes the code produces are
`memo_project_` + first 16 hex characters of the SHA-256 of the
worktree-stable identity (git common dir, else the working directory), and
`memo_container_` + a non-empty slug made of `[a-z0-9]` and `-` with no
leading or trailing dash. (The spec's literal `project:`/`container:`
prefixes do not match the code — see the counterexample.) -/
theorem containerTag_shapes (sha256hex : String → String)
    (gitCommonDir : Option String) (directory : String) :
    (getProjectTag sha256hex gitCommonDir directory).data
      = "memo_project_".data ++ (sha256hex (gitCommonDir.getD directory)).data.take 16
    ∧ ∀ name t, getNamedContainerTag name = some t →
        t = "memo_container_" ++ slugify name
        ∧ slugify name ≠ ""
        ∧ (∀ c ∈ (slugify name).data, isSlugChar c = true ∨ c = '-')
        ∧ (slugify name).data.head? ≠ some '-'
        ∧ (slugify name).data.getLast? ≠ some '-' := by
  constructor
  · show (("memo_project_" ++ sha256sliced sha256hex (gitCommonDir.getD directory))).data = _
    rw [String.data_append]
    rfl
  · intro name t ht
    unfold getNamedContainerTag at ht
    by_cases hempty : (slugify name).isEmpty = true
    · simp [hempty] at ht
    · simp only [hempty, Bool.false_eq_true, if_false, if_neg, Option.some.injEq] at ht
      refine ⟨ht.symm, ?_, ?_, ?_, ?_⟩
      · intro hcontra
        rw [hcontra] at hempty
        simp [String.isEmpty] at hempty
      · intro c hc
        have hc' : c ∈ trimDashes (slugCollapseGo
            ((((name.data.dropWhile (fun c => c.isWhitespace)).reverse.dropWhile
              (fun c => c.isWhitespace)).reverse).map Char.toLower) false) := hc
        exact slugCollapseGo_chars _ false c (trimDashes_mem _ _ hc')
      · exact trimDashes_head? _
      · exact trimDashes_getLast? _

/-- Counterexample to claim C5 as stated: the code's project tag begins with
`memo_project_`, not `project:`, and the named container tag begins with
`memo_container_`, not `container:` (shown at a concrete hash function,
directory and container name). -/
theorem containerTag_prefix_counterexample :
    getProjectTag (fun _ => "abcdef0123456789ffff") none "/home/user/proj"
        = "memo_project_abcdef0123456789"
    ∧ "memo_project_abcdef0123456789" ≠ "project:" ++ "abcdef0123456789"
    ∧ getNamedContainerTag "React Router" = some "memo_container_react-router"
    ∧ "memo_container_react-router" ≠ "container:" ++ "react-router" := by
  refine ⟨by decide, by decide, by decide, by decide⟩

theorem countP_filter_ne {α : Type} (f : α → String) (id mid : String)
    (hne : id ≠ mid) (l : List α) :
    (l.filter (fun x => !(f x == mid))).countP (fun x => f x == id)
      = l.countP (fun x => f x == id) := by
  rw [List.countP_filter]
  apply List.countP_congr
  intro a _
  by_cases h : f a = id
  · have : (f a == mid) = false := by
      simp only [beq_eq_false_iff_ne, ne_eq]
      rw [h]
      exact hne
    simp only [h, this, Bool.and_false, beq_iff_eq, if_true]
    simp [hne]
  · simp [h]

theorem countP_filter_not_self {α : Type} (f : α → String) (mid : String)
    (l : List α) :
    (l.filter (fun x => !(f x == mid))).countP (fun x => f x == mid) = 0 := by
  rw [List.countP_eq_zero]
  intro a ha
  have := (List.mem_filter.mp ha).2
  simp only [Bool.not_eq_true'] at this
  simp [this]

/-- The inductive synchronisation invariant: per id, the vector and FTS
indexes hold exactly as many rows as the main table, and the main table
holds at most one (the PRIMARY KEY). -/
def dbInv (s : DbState) : Prop :=
  ∀ id, vecCount s id = memCount s id ∧ ftsCount s id = memCount s id
    ∧ memCount s id ≤ 1

theorem dbInv_init : dbInv initDb := by
  intro id
  simp [initDb, vecCount, ftsCount, memCount]

theorem dbInv_insert (s : DbState) (r : MemRow)
    (hfresh : ∀ m ∈ s.mem, m.id ≠ r.id) (hinv : dbInv s) :
    dbInv (insertMemory s r) := by
  intro id
  obtain ⟨h1, h2, h3⟩ := hinv id
  have hmem : memCount (insertMemory s r) id
      = memCount s id + (if r.id == id then 1 else 0) := by
    simp [memCount, insertMemory, List.countP_append, List.countP_cons]
  have hvec : vecCount (insertMemory s r) id
      = vecCount s id + (if r.id == id then 1 else 0) := by
    simp [vecCount, insertMemory, List.countP_append, List.countP_cons]
  have hfts : ftsCount (insertMemory s r) id
      = ftsCount s id + (if r.id == id then 1 else 0) := by
    simp [ftsCount, insertMemory, List.countP_append, List.countP_cons]
  refine ⟨by rw [hvec, hmem, h1], by rw [hfts, hmem, h2], ?_⟩
  rw [hmem]
  by_cases hid : (r.id == id) = true
  · have hideq : r.id = id := by simpa using hid
    subst hideq
    have hz : memCount s r.id = 0 := by
      rw [memCount, List.countP_eq_zero]
      intro m hm
      simpa using hfresh m hm
    simp [hz, hid]
  · simp [hid, h3]

theorem dbInv_delete (s : DbState) (mid : String) (hinv : dbInv s) :
    dbInv (deleteMemory s mid).2 := by
  unfold deleteMemory
  by_cases hex : s.mem.any (fun r => r.id == mid) = true
  · simp only [hex, if_true]
    intro id
    by_cases hid : id = mid
    · subst hid
      refine ⟨?_, ?_, ?_⟩ <;>
        simp [vecCount, ftsCount, memCount, countP_filter_not_self (fun v => v),
          countP_filter_not_self (fun f : FtsRow => f.memoryId),
          countP_filter_not_self (fun r : MemRow => r.id)]
    · obtain ⟨h1, h2, h3⟩ := hinv id
      refine ⟨?_, ?_, ?_⟩ <;>
        simp only [vecCount, ftsCount, memCount,
          countP_filter_ne (fun v => v) id mid hid,
          countP_filter_ne (fun f : FtsRow => f.memoryId) id mid hid,
          countP_filter_ne (fun r : MemRow => r.id) id mid hid] <;>
        [exact h1; exact h2; exact h3]
  · simp only [hex, Bool.false_eq_true, if_false]
    exact hinv

theorem dbInv_of_reachable (s : DbState) (h : DbReachable s) : dbInv s := by
  unfold DbReachable at h
  induction h with
  | refl => exact dbInv_init
  | tail _ hstep ih =>
    cases hstep with
    | insert r hfresh => exact dbInv_insert _ r hfresh ih
    | delete mid => exact dbInv_delete _ mid ih

/-- Claim C4: in every reachable store state, each `memories` row has
exactly one row with its id in the vector index and exactly one in the
full-text index; `insertMemory` (with a PRIMARY-KEY-fresh id) adds exactly
one row to each of the three tables, leaving one row per table for the new
id; `deleteMemory` leaves zero rows with the deleted id in each table. -/
theorem threeTableSynchronisation (s : DbState) (hreach : DbReachable s) :
    (∀ r ∈ s.mem, vecCount s r.id = 1 ∧ ftsCount s r.id = 1)
    ∧ (∀ r : MemRow, (∀ m ∈ s.mem, m.id ≠ r.id) →
        (insertMemory s r).mem.length = s.mem.length + 1
        ∧ (insertMemory s r).vec.length = s.vec.length + 1
        ∧ (insertMemory s r).fts.length = s.fts.length + 1
        ∧ memCount (insertMemory s r) r.id = 1
        ∧ vecCount (insertMemory s r) r.id = 1
        ∧ ftsCount (insertMemory s r) r.id = 1)
    ∧ (∀ mid : String, memCount (deleteMemory s mid).2 mid = 0
        ∧ vecCount (deleteMemory s mid).2 mid = 0
        ∧ ftsCount (deleteMemory s mid).2 mid = 0) := by
  have hinv := dbInv_of_reachable s hreach
  refine ⟨?_, ?_, ?_⟩
  · intro r hr
    obtain ⟨h1, h2, h3⟩ := hinv r.id
    have hpos : 0 < memCount s r.id := by
      rw [memCount, List.countP_pos_iff]
      exact ⟨r, hr, by simp⟩
    have hone : memCount s r.id = 1 := le_antisymm h3 hpos
    exact ⟨by rw [h1, hone], by rw [h2, hone]⟩
  · intro r hfresh
    have hzero : memCount s r.id = 0 := by
      rw [memCount, List.countP_eq_zero]
      intro m hm
      simpa using hfresh m hm
    obtain ⟨h1, h2, _⟩ := hinv r.id
    have hmc : memCount (insertMemory s r) r.id = memCount s r.id + 1 := by
      simp [memCount, insertMemory, List.countP_append, List.countP_cons]
    have hvc : vecCount (insertMemory s r) r.id = vecCount s r.id + 1 := by
      simp [vecCount, insertMemory, List.countP_append, List.countP_cons]
    have hfc : ftsCount (insertMemory s r) r.id = ftsCount s r.id + 1 := by
      simp [ftsCount, insertMemory, List.countP_append, List.countP_cons]
    refine ⟨by simp [insertMemory], by simp [insertMemory], by simp [insertMemory],
      ?_, ?_, ?_⟩
    · rw [hmc, hzero]
    · rw [hvc, h1, hzero]
    · rw [hfc, h2, hzero]
  · intro mid
    by_cases hex : s.mem.any (fun r => r.id == mid) = true
    · have hm0 : memCount (deleteMemory s mid).2 mid = 0 := by
        simp only [deleteMemory, hex, if_true, memCount]
        exact countP_filter_not_self (fun r : MemRow => r.id) mid s.mem
      have hv0 : vecCount (deleteMemory s mid).2 mid = 0 := by
        simp only [deleteMemory, hex, if_true, vecCount]
        exact countP_filter_not_self (fun v : String => v) mid s.vec
      have hf0 : ftsCount (deleteMemory s mid).2 mid = 0 := by
        simp only [deleteMemory, hex, if_true, ftsCount]
        exact countP_filter_not_self (fun f : FtsRow => f.memoryId) mid s.fts
      exact ⟨hm0, hv0, hf0⟩
    · have hzero : memCount s mid = 0 := by
        rw [memCount, List.countP_eq_zero]
        intro m hm
        rw [List.any_eq_true] at hex
        push_neg at hex
        simpa using hex m hm
      obtain ⟨h1, h2, _⟩ := hinv mid
      simp only [deleteMemory, hex, Bool.false_eq_true, if_false]
      exact ⟨hzero, by rw [h1, hzero], by rw [h2, hzero]⟩

theorem buildVectorMapGo_get_none (raw : List RawVec) (minSim : ℚ) (rank : Nat)
    (acc : List (String × VectorResult)) (id : String)
    (hraw : ∀ r ∈ raw, r.memoryId = id → 1 - r.distance < minSim)
    (hacc : mapGet acc id = none) :
    mapGet (buildVectorMapGo raw minSim rank acc) id = none := by
  induction raw generalizing rank acc with
  | nil => simpa [buildVectorMapGo] using hacc
  | cons r rest ih =>
    by_cases hkeep : minSim ≤ 1 - r.distance
    · have hne : r.memoryId ≠ id := by
        intro hcontra
        exact absurd hkeep (not_le.mpr (hraw r (by simp) hcontra))
      rw [buildVectorMapGo]
      simp only [if_pos hkeep]
      exact ih _ _ (fun x hx hxid => hraw x (List.mem_cons_of_mem _ hx) hxid)
        (by rw [mapGet_set_ne _ _ _ _ hne]; exact hacc)
    · rw [buildVectorMapGo]
      simp only [if_neg hkeep]
      exact ih _ _ (fun x hx hxid => hraw x (List.mem_cons_of_mem _ hx) hxid) hacc

theorem buildVectorMapGo_get_some (raw : List RawVec) (minSim : ℚ) (rank : Nat)
    (acc : List (String × VectorResult)) (id : String) (v : VectorResult)
    (h : mapGet (buildVectorMapGo raw minSim rank acc) id = some v) :
    (∃ r ∈ raw, r.memoryId = id ∧ v.cosineSim = 1 - r.distance
      ∧ minSim ≤ 1 - r.distance)
    ∨ mapGet acc id = some v := by
  induction raw generalizing rank acc with
  | nil => right; simpa [buildVectorMapGo] using h
  | cons r rest ih =>
    by_cases hkeep : minSim ≤ 1 - r.distance
    · rw [buildVectorMapGo] at h
      simp only [if_pos hkeep] at h
      rcases ih _ _ h with h1 | h1
      · rcases h1 with ⟨x, hx, hrest⟩
        exact Or.inl ⟨x, List.mem_cons_of_mem _ hx, hrest⟩
      · by_cases hid : r.memoryId = id
        · subst hid
          rw [mapGet_set_self] at h1
          left
          refine ⟨r, by simp, rfl, ?_, hkeep⟩
          cases h1
          rfl
        · rw [mapGet_set_ne _ _ _ _ hid] at h1
          exact Or.inr h1
    · rw [buildVectorMapGo] at h
      simp only [if_neg hkeep] at h
      rcases ih _ _ h with h1 | h1
      · rcases h1 with ⟨x, hx, hrest⟩
        exact Or.inl ⟨x, List.mem_cons_of_mem _ hx, hrest⟩
      · exact Or.inr h1

theorem buildVectorMapGo_keysNodup (raw : List RawVec) (minSim : ℚ) (rank : Nat)
    (acc : List (String × VectorResult))
    (hacc : (acc.map Prod.fst).Nodup) :
    ((buildVectorMapGo raw minSim rank acc).map Prod.fst).Nodup := by
  induction raw generalizing rank acc with
  | nil => simpa [buildVectorMapGo] using hacc
  | cons r rest ih =>
    by_cases hkeep : minSim ≤ 1 - r.distance
    · rw [buildVectorMapGo]
      simp only [if_pos hkeep]
      exact ih _ _ (keysNodup_mapSet _ _ _ hacc)
    · rw [buildVectorMapGo]
      simp only [if_neg hkeep]
      exact ih _ _ hacc

theorem buildBm25Go_get_none_iff (rows : List String) (idx : Nat)
    (acc : List (String × Nat)) (id : String) :
    mapGet (buildBm25Go rows idx acc) id = none
      ↔ id ∉ rows ∧ mapGet acc id = none := by
  induction rows generalizing idx acc with
  | nil => simp [buildBm25Go]
  | cons r rest ih =>
    rw [buildBm25Go, ih]
    by_cases hid : r = id
    · subst hid
      rw [mapGet_set_self]
      simp
    · rw [mapGet_set_ne _ _ _ _ hid]
      simp only [List.mem_cons]
      constructor
      · rintro ⟨h1, h2⟩
        exact ⟨fun hc => hc.elim (fun hh => hid hh.symm) h1, h2⟩
      · rintro ⟨h1, h2⟩
        exact ⟨fun hc => h1 (Or.inr hc), h2⟩

theorem buildBm25Go_keysNodup (rows : List String) (idx : Nat)
    (acc : List (String × Nat)) (hacc : (acc.map Prod.fst).Nodup) :
    ((buildBm25Go rows idx acc).map Prod.fst).Nodup := by
  induction rows generalizing idx acc with
  | nil => simpa [buildBm25Go] using hacc
  | cons r rest ih => exact ih _ _ (keysNodup_mapSet _ _ _ hacc)

theorem mapGet_map_rank (m : List (String × VectorResult)) (id : String) :
    mapGet (m.map (fun p => (p.1, p.2.rank))) id = (mapGet m id).map (fun v => v.rank) := by
  induction m with
  | nil => simp [mapGet]
  | cons hd tl ih =>
    obtain ⟨k, v⟩ := hd
    by_cases h : k = id
    · simp [mapGet, h]
    · simp [mapGet, h, ih]

/-- The first loop of `reciprocalRankFusion`: writing a constant value per
distinct key. -/
theorem foldl_mapSet_const_get (entries : List (String × Nat)) (g : Nat → ℚ)
    (init : List (String × ℚ)) (id : String)
    (hnodup : (entries.map Prod.fst).Nodup) :
    mapGet (entries.foldl (fun acc p => mapSet acc p.1 (g p.2)) init) id
      = match mapGet entries id with
        | some rk => some (g rk)
        | none => mapGet init id := by
  induction entries generalizing init with
  | nil => simp [mapGet]
  | cons hd rest ih =>
    obtain ⟨k, rk⟩ := hd
    simp only [List.map_cons, List.nodup_cons] at hnodup
    rw [List.foldl_cons, ih _ hnodup.2]
    by_cases hid : k = id
    · subst hid
      have hrest : mapGet rest k = none :=
        (mapGet_eq_none_iff rest k).mpr hnodup.1
      rw [hrest]
      simp [mapGet, mapGet_set_self]
    · rw [mapGet_set_ne _ _ _ _ hid]
      simp [mapGet, hid]

/-- The second loop of `reciprocalRankFusion`: adding onto the current value
per distinct key. -/
theorem foldl_mapSet_add_get (entries : List (String × Nat)) (g : Nat → ℚ)
    (init : List (String × ℚ)) (id : String)
    (hnodup : (entries.map Prod.fst).Nodup) :
    mapGet (entries.foldl
        (fun acc p => mapSet acc p.1 ((mapGet acc p.1).getD 0 + g p.2)) init) id
      = match mapGet entries id with
        | some rk => some ((mapGet init id).getD 0 + g rk)
        | none => mapGet init id := by
  induction entries generalizing init with
  | nil => simp [mapGet]
  | cons hd rest ih =>
    obtain ⟨k, rk⟩ := hd
    simp only [List.map_cons, List.nodup_cons] at hnodup
    rw [List.foldl_cons, ih _ hnodup.2]
    by_cases hid : k = id
    · subst hid
      have hrest : mapGet rest k = none :=
        (mapGet_eq_none_iff rest k).mpr hnodup.1
      rw [hrest]
      simp [mapGet, mapGet_set_self]
    · rw [mapGet_set_ne _ _ _ _ hid]
      simp [mapGet, hid]

/-- Value of the fused RRF score map at any id, in terms of the two rank
maps (`k = 60`). -/
theorem reciprocalRankFusion_get (vr bm : List (String × Nat)) (id : String)
    (hv : (vr.map Prod.fst).Nodup) (hb : (bm.map Prod.fst).Nodup) :
    mapGet (reciprocalRankFusion vr bm) id
      = match mapGet vr id, mapGet bm id with
        | some vrk, some brk =>
            some (1 / ((RRF_K : ℚ) + (vrk : ℚ)) + 1 / ((RRF_K : ℚ) + (brk : ℚ)))
        | some vrk, none => some (1 / ((RRF_K : ℚ) + (vrk : ℚ)))
        | none, some brk => some (0 + 1 / ((RRF_K : ℚ) + (brk : ℚ)))
        | none, none => none := by
  unfold reciprocalRankFusion
  rw [foldl_mapSet_add_get bm (fun rk => 1 / ((RRF_K : ℚ) + (rk : ℚ))) _ id hb,
    foldl_mapSet_const_get vr (fun rk => 1 / ((RRF_K : ℚ) + (rk : ℚ))) [] id hv]
  cases hvr : mapGet vr id <;> cases hbm : mapGet bm id <;>
    simp [mapGet, foldl_mapSet_const_get vr
      (fun rk => 1 / ((RRF_K : ℚ) + (rk : ℚ))) [] id hv, hvr]

/-- Every search result arises by scoring a fetched candidate row. -/
theorem searchMemories_mem_elim (cfg : Config) (raw : List RawVec)
    (containerTag : Option String) (queryText : Option String)
    (ftsOutcome : Except String (List String)) (limit : Option Nat)
    (threshold : Option ℚ) (memTable : List MemRow) (res : SearchResult)
    (h : res ∈ searchMemories cfg raw containerTag queryText ftsOutcome limit
      threshold memTable) :
    ∃ row ∈ searchCandidateRows
        (reciprocalRankFusion
          ((buildVectorMap raw cfg.minVectorSimilarity).map (fun p => (p.1, p.2.rank)))
          (buildBm25Rankings (effectiveBm25Rows queryText ftsOutcome)))
        containerTag memTable,
      res = scoreRow
        (reciprocalRankFusion
          ((buildVectorMap raw cfg.minVectorSimilarity).map (fun p => (p.1, p.2.rank)))
          (buildBm25Rankings (effectiveBm25Rows queryText ftsOutcome)))
        (buildBm25Rankings (effectiveBm25Rows queryText ftsOutcome))
        (buildVectorMap raw cfg.minVectorSimilarity) row := by
  unfold searchMemories at h
  by_cases hlen : (reciprocalRankFusion
      ((buildVectorMap raw cfg.minVectorSimilarity).map (fun p => (p.1, p.2.rank)))
      (buildBm25Rankings (effectiveBm25Rows queryText ftsOutcome))).length = 0
  · simp only [hlen, if_pos] at h
    simp at h
  · simp only [hlen, if_neg, if_false] at h
    have h1 := List.mem_of_mem_take h
    have h2 := List.mem_of_mem_filter h1
    have h3 := (List.Perm.mem_iff (List.perm_insertionSort _ _)).mp h2
    rcases List.mem_map.mp h3 with ⟨row, hrow, hres⟩
    exact ⟨row, hrow, hres.symm⟩

theorem vr_keysNodup (raw : List RawVec) (minSim : ℚ) :
    (((buildVectorMap raw minSim).map (fun p => (p.1, p.2.rank))).map Prod.fst).Nodup := by
  have := buildVectorMapGo_keysNodup raw minSim 0 [] (by simp)
  simpa [List.map_map, Function.comp] using this

theorem bm_keysNodup (rows : List String) :
    ((buildBm25Rankings rows).map Prod.fst).Nodup :=
  buildBm25Go_keysNodup rows 0 [] (by simp)

/-- Claim C1: the reported similarities of `searchMemories`. A KNN candidate
below the `minVectorSimilarity` gate that the BM25 list does not contain
never appears in the results; a result found only in the gated vector list
reports its raw cosine similarity; a result found in both lists reports
`min(RRF/(2/60), 1)` — exactly `1.0` at rank 0 in both — and a BM25-only
result reports `min(RRF/(1/60), 1)`, `RRF` being the sum of `1/(60+rank)`
over the lists containing the id (0-based ranks). -/
theorem searchMemories_scoring (cfg : Config) (raw : List RawVec)
    (containerTag : Option String) (queryText : Option String)
    (ftsOutcome : Except String (List String)) (limit : Option Nat)
    (threshold : Option ℚ) (memTable : List MemRow) :
    (∀ id : String,
      (∀ r ∈ raw, r.memoryId = id → 1 - r.distance < cfg.minVectorSimilarity) →
      id ∉ effectiveBm25Rows queryText ftsOutcome →
      ∀ res ∈ searchMemories cfg raw containerTag queryText ftsOutcome limit
        threshold memTable, res.id ≠ id)
    ∧ (∀ res ∈ searchMemories cfg raw containerTag queryText ftsOutcome limit
        threshold memTable,
      ∀ v : VectorResult,
        mapGet (buildVectorMap raw cfg.minVectorSimilarity) res.id = some v →
        mapGet (buildBm25Rankings (effectiveBm25Rows queryText ftsOutcome)) res.id
          = none →
        res.similarity = v.cosineSim)
    ∧ (∀ res ∈ searchMemories cfg raw containerTag queryText ftsOutcome limit
        threshold memTable,
      ∀ (v : VectorResult) (brk : Nat),
        mapGet (buildVectorMap raw cfg.minVectorSimilarity) res.id = some v →
        mapGet (buildBm25Rankings (effectiveBm25Rows queryText ftsOutcome)) res.id
          = some brk →
        res.similarity
          = min ((1 / ((60 : ℚ) + (v.rank : ℚ)) + 1 / ((60 : ℚ) + (brk : ℚ)))
              / (2 / 60)) 1
        ∧ (v.rank = 0 → brk = 0 → res.similarity = 1))
    ∧ (∀ res ∈ searchMemories cfg raw containerTag queryText ftsOutcome limit
        threshold memTable,
      ∀ brk : Nat,
        mapGet (buildVectorMap raw cfg.minVectorSimilarity) res.id = none →
        mapGet (buildBm25Rankings (effectiveBm25Rows queryText ftsOutcome)) res.id
          = some brk →
        res.similarity = min ((1 / ((60 : ℚ) + (brk : ℚ))) / (1 / 60)) 1) := by
  have hK : (RRF_K : ℚ) = 60 := by norm_num [RRF_K]
  have hvnd := vr_keysNodup raw cfg.minVectorSimilarity
  have hbnd := bm_keysNodup (effectiveBm25Rows queryText ftsOutcome)
  refine ⟨?_, ?_, ?_, ?_⟩
  · intro id hraw hbm res hres hid
    rcases searchMemories_mem_elim cfg raw containerTag queryText ftsOutcome limit
      threshold memTable res hres with ⟨row, hrow, hresEq⟩
    have hrowid : res.id = row.id := by rw [hresEq]; rfl
    have hrowid' : row.id = id := by rw [← hrowid, hid]
    -- row.id is among the fused candidate ids
    have hkeys : row.id ∈ (reciprocalRankFusion
        ((buildVectorMap raw cfg.minVectorSimilarity).map (fun p => (p.1, p.2.rank)))
        (buildBm25Rankings (effectiveBm25Rows queryText ftsOutcome))).map Prod.fst := by
      unfold searchCandidateRows at hrow
      cases containerTag with
      | none =>
        have := (List.mem_filter.mp hrow).2
        simpa using this
      | some c =>
        have := (List.mem_filter.mp hrow).2
        simp only [Bool.and_eq_true] at this
        simpa using this.1
    -- but the fused map has nothing at id
    have hvnone : mapGet (buildVectorMap raw cfg.minVectorSimilarity) row.id = none := by
      rw [hrowid']
      exact buildVectorMapGo_get_none raw cfg.minVectorSimilarity 0 [] id hraw rfl
    have hbnone : mapGet (buildBm25Rankings (effectiveBm25Rows queryText ftsOutcome))
        row.id = none := by
      rw [hrowid']
      exact (buildBm25Go_get_none_iff _ 0 [] id).mpr ⟨hbm, rfl⟩
    have hrrf : mapGet (reciprocalRankFusion
        ((buildVectorMap raw cfg.minVectorSimilarity).map (fun p => (p.1, p.2.rank)))
        (buildBm25Rankings (effectiveBm25Rows queryText ftsOutcome))) row.id = none := by
      rw [reciprocalRankFusion_get _ _ _ hvnd hbnd, mapGet_map_rank, hvnone, hbnone]
      rfl
    rw [mapGet_eq_none_iff] at hrrf
    exact hrrf hkeys
  · intro res hres v hv hb
    rcases searchMemories_mem_elim cfg raw containerTag queryText ftsOutcome limit
      threshold memTable res hres with ⟨row, _, hresEq⟩
    have hrowid : res.id = row.id := by rw [hresEq]; rfl
    rw [hrowid] at hv hb
    rw [hresEq]
    simp [scoreRow, hv, hb]
  · intro res hres v brk hv hb
    rcases searchMemories_mem_elim cfg raw containerTag queryText ftsOutcome limit
      threshold memTable res hres with ⟨row, _, hresEq⟩
    have hrowid : res.id = row.id := by rw [hresEq]; rfl
    rw [hrowid] at hv hb
    have hrrf : mapGet (reciprocalRankFusion
        ((buildVectorMap raw cfg.minVectorSimilarity).map (fun p => (p.1, p.2.rank)))
        (buildBm25Rankings (effectiveBm25Rows queryText ftsOutcome))) row.id
        = some (1 / ((RRF_K : ℚ) + (v.rank : ℚ)) + 1 / ((RRF_K : ℚ) + (brk : ℚ))) := by
      rw [reciprocalRankFusion_get _ _ _ hvnd hbnd, mapGet_map_rank, hv, hb]
      rfl
    have hsim : res.similarity
        = min ((1 / ((60 : ℚ) + (v.rank : ℚ)) + 1 / ((60 : ℚ) + (brk : ℚ)))
            / (2 / 60)) 1 := by
      rw [hresEq]
      simp [scoreRow, hrrf, hb, hv, hK]
    refine ⟨hsim, ?_⟩
    intro hv0 hb0
    rw [hsim, hv0, hb0]
    norm_num
  · intro res hres brk hv hb
    rcases searchMemories_mem_elim cfg raw containerTag queryText ftsOutcome limit
      threshold memTable res hres with ⟨row, _, hresEq⟩
    have hrowid : res.id = row.id := by rw [hresEq]; rfl
    rw [hrowid] at hv hb
    have hrrf : mapGet (reciprocalRankFusion
        ((buildVectorMap raw cfg.minVectorSimilarity).map (fun p => (p.1, p.2.rank)))
        (buildBm25Rankings (effectiveBm25Rows queryText ftsOutcome))) row.id
        = some (0 + 1 / ((RRF_K : ℚ) + (brk : ℚ))) := by
      rw [reciprocalRankFusion_get _ _ _ hvnd hbnd, mapGet_map_rank, hv, hb]
      rfl
    rw [hresEq]
    simp [scoreRow, hrrf, hb, hv, hK]

/-- Modelled from the spec: the body of a JSON string literal — a sequence
of backslash-escaped pairs and plain characters, so that every `"` and every
escaping `\` inside the body is part of an escape pair. -/
inductive StrBody : List Char → Prop
  | nil : StrBody []
  | esc (c : Char) (rest : List Char) : StrBody rest → StrBody ('\\' :: c :: rest)
  | chr (c : Char) (rest : List Char) : c ≠ '"' → c ≠ '\\' → StrBody rest →
      StrBody (c :: rest)

theorem strBody_backslashRun (body : List Char) (hb : StrBody body) :
    ∀ t : List Char, backslashRun t % 2 = 0 →
      backslashRun (body.reverse ++ t) % 2 = 0 := by
  induction hb with
  | nil => intro t ht; simpa using ht
  | esc c rest _ ih =>
    intro t ht
    have hshape : ('\\' :: c :: rest).reverse ++ t
        = rest.reverse ++ (c :: '\\' :: t) := by simp
    rw [hshape]
    apply ih
    by_cases hc : c = '\\'
    · subst hc
      simp only [backslashRun, beq_self_eq_true, if_pos]
      omega
    · have hcf : (c == '\\') = false := beq_eq_false_iff_ne.mpr hc
      simp [backslashRun, hcf]
  | chr c rest _ hbs _ ih =>
    intro t ht
    have hshape : (c :: rest).reverse ++ t = rest.reverse ++ (c :: t) := by simp
    rw [hshape]
    apply ih
    have hcf : (c == '\\') = false := beq_eq_false_iff_ne.mpr hbs
    simp [backslashRun, hcf]

/-- Inside a string (with an even backslash run behind), a well-formed string
body is copied verbatim and the machine stays in string mode. -/
theorem strBody_copy (body : List Char) (hb : StrBody body) :
    ∀ (prevRev tail : List Char), backslashRun prevRev % 2 = 0 →
      stripCommentsGo prevRev (body ++ tail) true false false
        = body ++ stripCommentsGo (body.reverse ++ prevRev) tail true false false := by
  induction hb with
  | nil => intro prevRev tail _; simp
  | esc c rest _ ih =>
    intro prevRev tail hrun
    have hbsq : (('\\' : Char) == '"') = false := by decide
    rw [List.cons_append, List.cons_append, stripCommentsGo]
    simp only [Bool.not_false, Bool.true_and, hbsq, Bool.false_eq_true, if_false,
      if_pos]
    have heven : backslashRun (c :: '\\' :: prevRev) % 2 = 0 := by
      by_cases hc2 : c = '\\'
      · subst hc2
        simp only [backslashRun, beq_self_eq_true, if_pos]
        omega
      · have hcf : (c == '\\') = false := beq_eq_false_iff_ne.mpr hc2
        simp [backslashRun, hcf]
    by_cases hcq : c = '"'
    · subst hcq
      rw [stripCommentsGo]
      have hodd : ¬ (backslashRun ('\\' :: prevRev) % 2 = 0) := by
        simp only [backslashRun, beq_self_eq_true, if_pos]
        omega
      simp only [Bool.not_false, Bool.true_and, beq_self_eq_true, if_pos,
        if_neg hodd]
      rw [ih ('"' :: '\\' :: prevRev) tail heven]
      simp [List.append_assoc]
    · have hcf : (c == '"') = false := beq_eq_false_iff_ne.mpr hcq
      rw [stripCommentsGo]
      simp only [Bool.not_false, Bool.true_and, hcf, Bool.false_eq_true, if_false,
        if_pos]
      rw [ih (c :: '\\' :: prevRev) tail heven]
      simp [List.append_assoc]
  | chr c rest hq hbs2 _ ih =>
    intro prevRev tail hrun
    have hcf : (c == '"') = false := beq_eq_false_iff_ne.mpr hq
    have hbf : (c == '\\') = false := beq_eq_false_iff_ne.mpr hbs2
    rw [List.cons_append, stripCommentsGo]
    simp only [Bool.not_false, Bool.true_and, hcf, Bool.false_eq_true, if_false,
      if_pos]
    rw [ih (c :: prevRev) tail (by simp [backslashRun, hbf])]
    simp [List.append_assoc]

/-- A whole string literal — a well-formed body between two quotes — is
copied verbatim by the comment machine, whatever follows. -/
theorem stripCommentsGo_strBody_literal (body : List Char) (hb : StrBody body)
    (prevRev rest : List Char) (hrun : backslashRun prevRev % 2 = 0) :
    stripCommentsGo prevRev ('"' :: (body ++ '"' :: rest)) false false false
      = '"' :: (body ++ '"' ::
          stripCommentsGo ('"' :: (body.reverse ++ '"' :: prevRev)) rest
            false false false) := by
  have hq0 : (('"' : Char) == '\\') = false := by decide
  rw [stripCommentsGo]
  simp only [Bool.not_false, Bool.true_and, beq_self_eq_true, if_pos, if_true,
    hrun, Bool.not_false]
  rw [strBody_copy body hb ('"' :: prevRev) ('"' :: rest)
    (by simp [backslashRun, hq0])]
  have hclose : backslashRun (body.reverse ++ '"' :: prevRev) % 2 = 0 :=
    strBody_backslashRun body hb ('"' :: prevRev) (by simp [backslashRun, hq0])
  rw [stripCommentsGo]
  simp only [Bool.not_false, Bool.true_and, beq_self_eq_true, if_pos, if_true,
    hclose, Bool.not_true]

/-- In single-line-comment mode, a newline-free body is skipped; the
terminating newline is emitted and ends the comment. -/
theorem stripCommentsGo_lineComment (body : List Char) :
    '\n' ∉ body → ∀ (prevRev l : List Char),
      stripCommentsGo prevRev (body ++ '\n' :: l) false true false
        = '\n' :: stripCommentsGo ('\n' :: (body.reverse ++ prevRev)) l
            false false false := by
  induction body with
  | nil =>
    intro _ prevRev l
    rw [List.nil_append, stripCommentsGo]
    simp only [Bool.not_true, Bool.false_and, Bool.and_false, Bool.false_eq_true,
      if_false, if_pos, beq_self_eq_true, List.reverse_nil, List.nil_append]
  | cons c rest ih =>
    intro hnl prevRev l
    have hc : (c == '\n') = false := by
      simp only [beq_eq_false_iff_ne, ne_eq]
      intro h
      exact hnl (by simp [h])
    have hrest : '\n' ∉ rest := fun h => hnl (List.mem_cons_of_mem _ h)
    rw [List.cons_append, stripCommentsGo]
    simp only [Bool.not_true, Bool.false_and, Bool.and_false, Bool.false_eq_true,
      if_false, if_pos, hc]
    rw [ih hrest (c :: prevRev) l]
    simp [List.append_assoc]

/-- In single-line-comment mode, a newline-free tail up to the end of input
is dropped entirely. -/
theorem stripCommentsGo_lineCommentEof (body : List Char) :
    '\n' ∉ body → ∀ prevRev : List Char,
      stripCommentsGo prevRev body false true false = [] := by
  induction body with
  | nil => intro _ prevRev; simp [stripCommentsGo]
  | cons c rest ih =>
    intro hnl prevRev
    have hc : (c == '\n') = false := by
      simp only [beq_eq_false_iff_ne, ne_eq]
      intro h
      exact hnl (by simp [h])
    have hrest : '\n' ∉ rest := fun h => hnl (List.mem_cons_of_mem _ h)
    rw [stripCommentsGo]
    simp only [Bool.not_true, Bool.false_and, Bool.and_false, Bool.false_eq_true,
      if_false, if_pos, hc]
    exact ih hrest (c :: prevRev)

/-- In multi-line-comment mode, a terminator-free body followed by the
closing sequence is dropped except for its newlines, and the machine returns
to normal mode after the terminator. -/
theorem stripCommentsGo_blockComment (body : List Char) :
    ¬ (['*', '/'] <:+: body) → ∀ (prevRev l : List Char),
      stripCommentsGo prevRev (body ++ '*' :: '/' :: l) false false true
        = body.filter (fun c => c == '\n')
          ++ stripCommentsGo ('/' :: '*' :: (body.reverse ++ prevRev)) l
              false false false := by
  induction body with
  | nil =>
    intro _ prevRev l
    rw [List.nil_append, stripCommentsGo]
    simp only [Bool.not_true, Bool.not_false, Bool.true_and, Bool.false_and,
      Bool.and_false, Bool.false_eq_true, if_false, if_pos, beq_self_eq_true,
      List.head?_cons, List.tail_cons, List.filter_nil, List.nil_append,
      List.reverse_nil]
  | cons c rest ih =>
    intro hns prevRev l
    have hns' : ¬ (['*', '/'] <:+: rest) := fun h => hns (List.infix_cons h)
    rw [List.cons_append, stripCommentsGo]
    simp only [Bool.not_true, Bool.not_false, Bool.true_and, Bool.false_and,
      Bool.and_false, Bool.false_eq_true, if_false, if_pos]
    by_cases hcond : (c == '*' && ((rest ++ '*' :: '/' :: l).head? == some '/'))
        = true
    · exfalso
      rw [Bool.and_eq_true] at hcond
      obtain ⟨hcs, hh⟩ := hcond
      have hc : c = '*' := by simpa using hcs
      cases rest with
      | nil =>
        rw [List.nil_append, List.head?_cons] at hh
        exact absurd hh (by decide)
      | cons r0 r2 =>
        rw [List.cons_append, List.head?_cons] at hh
        have hr0 : r0 = '/' := by simpa using hh
        exact hns ⟨[], r2, by simp [hc, hr0]⟩
    · rw [if_neg hcond]
      cases hx : (c == '\n') with
      | true =>
        simp only [if_pos]
        rw [ih hns' (c :: prevRev) l]
        simp [List.filter_cons, hx, List.append_assoc]
      | false =>
        simp only [Bool.false_eq_true, if_false]
        rw [ih hns' (c :: prevRev) l]
        simp [List.filter_cons, hx, List.append_assoc]

/-- In multi-line-comment mode, an unterminated terminator-free tail is
dropped to the end of input except for its newlines. -/
theorem stripCommentsGo_blockCommentEof (body : List Char) :
    ¬ (['*', '/'] <:+: body) → ∀ prevRev : List Char,
      stripCommentsGo prevRev body false false true
        = body.filter (fun c => c == '\n') := by
  induction body with
  | nil => intro _ prevRev; simp [stripCommentsGo]
  | cons c rest ih =>
    intro hns prevRev
    have hns' : ¬ (['*', '/'] <:+: rest) := fun h => hns (List.infix_cons h)
    rw [stripCommentsGo]
    simp only [Bool.not_true, Bool.not_false, Bool.true_and, Bool.false_and,
      Bool.and_false, Bool.false_eq_true, if_false, if_pos]
    by_cases hcond : (c == '*' && (rest.head? == some '/')) = true
    · exfalso
      rw [Bool.and_eq_true] at hcond
      obtain ⟨hcs, hh⟩ := hcond
      have hc : c = '*' := by simpa using hcs
      cases rest with
      | nil =>
        rw [List.head?_nil] at hh
        exact absurd hh (by decide)
      | cons r0 r2 =>
        rw [List.head?_cons] at hh
        have hr0 : r0 = '/' := by simpa using hh
        exact hns ⟨[], r2, by simp [hc, hr0]⟩
    · rw [if_neg hcond]
      cases hx : (c == '\n') with
      | true =>
        simp only [if_pos]
        rw [ih hns' (c :: prevRev)]
        simp [List.filter_cons, hx]
      | false =>
        simp only [Bool.false_eq_true, if_false]
        rw [ih hns' (c :: prevRev)]
        simp [List.filter_cons, hx]

/-- Modelled from the spec: the declarative segmentation of a JSONC text into
code characters, string literals, `//` comments ending at a newline or at the
end of input, and `/* */` comments, together with the text each segment
contributes to the comment-stripped output. Everything outside comments is
kept verbatim — plain characters, a `/` that opens no comment, and complete
string literals (in particular ones containing `//`) — while a `//` comment
keeps only its terminating newline and a `/* */` comment keeps only its
interior newlines. -/
inductive CommentsSpec : List Char → List Char → Prop
  | nil : CommentsSpec [] []
  | plain (c : Char) (l out : List Char) : c ≠ '"' → c ≠ '/' → c ≠ '\\' →
      CommentsSpec l out → CommentsSpec (c :: l) (c :: out)
  | slash (l out : List Char) : l.head? ≠ some '/' → l.head? ≠ some '*' →
      CommentsSpec l out → CommentsSpec ('/' :: l) ('/' :: out)
  | str (body l out : List Char) : StrBody body → CommentsSpec l out →
      CommentsSpec ('"' :: (body ++ '"' :: l)) ('"' :: (body ++ '"' :: out))
  | lineComment (body l out : List Char) : '\n' ∉ body → CommentsSpec l out →
      CommentsSpec ('/' :: '/' :: (body ++ '\n' :: l)) ('\n' :: out)
  | lineCommentEof (body : List Char) : '\n' ∉ body →
      CommentsSpec ('/' :: '/' :: body) []
  | blockComment (body l out : List Char) : ¬ (['*', '/'] <:+: body) →
      CommentsSpec l out →
      CommentsSpec ('/' :: '*' :: (body ++ '*' :: '/' :: l))
        (body.filter (fun c => c == '\n') ++ out)
  | blockCommentEof (body : List Char) : ¬ (['*', '/'] <:+: body) →
      CommentsSpec ('/' :: '*' :: body) (body.filter (fun c => c == '\n'))

/-- The comment machine refines the declarative segmentation: on every input
that segments into code, string literals and comments, it emits exactly the
segmentation's output. -/
theorem stripCommentsGo_spec (l out : List Char) (h : CommentsSpec l out) :
    ∀ prevRev : List Char, backslashRun prevRev % 2 = 0 →
      stripCommentsGo prevRev l false false false = out := by
  have hq0 : (('"' : Char) == '\\') = false := by decide
  have hs0 : (('/' : Char) == '\\') = false := by decide
  have hn0 : (('\n' : Char) == '\\') = false := by decide
  have hsq : (('/' : Char) == '"') = false := by decide
  induction h with
  | nil => intro prevRev _; simp [stripCommentsGo]
  | plain c l out hq hs hbs _ ih =>
    intro prevRev _
    have hqf : (c == '"') = false := beq_eq_false_iff_ne.mpr hq
    have hsf : (c == '/') = false := beq_eq_false_iff_ne.mpr hs
    have hbf : (c == '\\') = false := beq_eq_false_iff_ne.mpr hbs
    rw [stripCommentsGo]
    simp only [Bool.not_false, Bool.true_and, hqf, hsf, Bool.false_eq_true,
      if_false, Bool.false_and]
    rw [ih (c :: prevRev) (by simp [backslashRun, hbf])]
  | slash l out hh1 hh2 _ ih =>
    intro prevRev _
    have hh1f : (l.head? == some '/') = false := beq_eq_false_iff_ne.mpr hh1
    have hh2f : (l.head? == some '*') = false := beq_eq_false_iff_ne.mpr hh2
    rw [stripCommentsGo]
    simp only [Bool.not_false, Bool.true_and, hsq, hh1f, hh2f, Bool.and_false,
      Bool.false_eq_true, if_false, beq_self_eq_true]
    rw [ih ('/' :: prevRev) (by simp [backslashRun, hs0])]
  | str body l out hb _ ih =>
    intro prevRev hrun
    rw [stripCommentsGo_strBody_literal body hb prevRev l hrun]
    rw [ih ('"' :: (body.reverse ++ '"' :: prevRev)) (by simp [backslashRun, hq0])]
  | lineComment body l out hnl _ ih =>
    intro prevRev _
    rw [stripCommentsGo]
    simp only [Bool.not_false, Bool.true_and, hsq, Bool.false_eq_true, if_false,
      beq_self_eq_true, List.head?_cons, if_pos, List.tail_cons]
    rw [stripCommentsGo_lineComment body hnl ('/' :: '/' :: prevRev) l]
    rw [ih ('\n' :: (body.reverse ++ '/' :: '/' :: prevRev))
      (by simp [backslashRun, hn0])]
  | lineCommentEof body hnl =>
    intro prevRev _
    rw [stripCommentsGo]
    simp only [Bool.not_false, Bool.true_and, hsq, Bool.false_eq_true, if_false,
      beq_self_eq_true, List.head?_cons, if_pos, List.tail_cons]
    exact stripCommentsGo_lineCommentEof body hnl ('/' :: '/' :: prevRev)
  | blockComment body l out hns _ ih =>
    intro prevRev _
    have hsm : ((some '*' : Option Char) == some '/') = false := by decide
    rw [stripCommentsGo]
    simp only [Bool.not_false, Bool.true_and, hsq, Bool.false_eq_true, if_false,
      beq_self_eq_true, List.head?_cons, hsm, Bool.and_false, if_pos,
      List.tail_cons]
    rw [stripCommentsGo_blockComment body hns ('*' :: '/' :: prevRev) l]
    rw [ih ('/' :: '*' :: (body.reverse ++ '*' :: '/' :: prevRev))
      (by simp [backslashRun, hs0])]
  | blockCommentEof body hns =>
    intro prevRev _
    have hsm : ((some '*' : Option Char) == some '/') = false := by decide
    rw [stripCommentsGo]
    simp only [Bool.not_false, Bool.true_and, hsq, Bool.false_eq_true, if_false,
      beq_self_eq_true, List.head?_cons, hsm, Bool.and_false, if_pos,
      List.tail_cons]
    exact stripCommentsGo_blockCommentEof body hns ('*' :: '/' :: prevRev)
theorem rtcMatch_split (l : List Char) (b : Char) (r : List Char)
    (h : rtcMatch l = some (b, r)) :
    ∃ ws, l = ws ++ b :: r ∧ (∀ c ∈ ws, c.isWhitespace = true)
      ∧ ((b == '}' || b == ']') = true) := by
  induction l with
  | nil => simp [rtcMatch] at h
  | cons c rest ih =>
    by_cases h1 : (c == '}' || c == ']') = true
    · rw [rtcMatch, if_pos h1] at h
      simp only [Option.some.injEq, Prod.mk.injEq] at h
      exact ⟨[], by simp [h.1, h.2], by simp, h.1 ▸ h1⟩
    · by_cases h2 : c.isWhitespace = true
      · rw [rtcMatch, if_neg h1, if_pos h2] at h
        rcases ih h with ⟨ws, heq, hws, hb⟩
        exact ⟨c :: ws, by simp [heq], by
          intro x hx
          rcases List.mem_cons.mp hx with hx | hx
          · rw [hx]; exact h2
          · exact hws x hx, hb⟩
      · rw [rtcMatch, if_neg h1, if_neg h2] at h
        simp at h

/-- Modelled from the spec: the text after a comma opens a trailing-comma
span exactly when only whitespace separates the comma from a following `}`
or `]`. -/
def IsTrailingLookahead (l : List Char) : Prop :=
  ∃ ws b r, l = ws ++ b :: r ∧ (∀ c ∈ ws, c.isWhitespace = true)
    ∧ (b = '}' ∨ b = ']')

theorem rtcMatch_of_lookahead (ws : List Char) :
    ∀ (b : Char) (r : List Char), (∀ c ∈ ws, c.isWhitespace = true) →
      (b = '}' ∨ b = ']') → rtcMatch (ws ++ b :: r) = some (b, r) := by
  induction ws with
  | nil =>
    intro b r _ hb
    have hb' : (b == '}' || b == ']') = true := by rcases hb with h | h <;> simp [h]
    rw [List.nil_append, rtcMatch, if_pos hb']
  | cons w ws' ih =>
    intro b r hws hb
    have hw : w.isWhitespace = true := hws w (List.mem_cons_self _ _)
    have h1 : w ≠ '}' := by intro h; rw [h] at hw; exact absurd hw (by decide)
    have h2 : w ≠ ']' := by intro h; rw [h] at hw; exact absurd hw (by decide)
    have hwb : ¬ ((w == '}' || w == ']') = true) := by
      simp [beq_eq_false_iff_ne.mpr h1, beq_eq_false_iff_ne.mpr h2]
    rw [List.cons_append, rtcMatch, if_neg hwb, if_pos hw]
    exact ih b r (fun c hc => hws c (List.mem_cons_of_mem _ hc)) hb

/-- The regex lookahead fails exactly on the comma positions that the
amended claim protects: those not followed by whitespace and a bracket. -/
theorem rtcMatch_none_iff (l : List Char) :
    rtcMatch l = none ↔ ¬ IsTrailingLookahead l := by
  constructor
  · intro hnone hlook
    rcases hlook with ⟨ws, b, r, heq, hws, hb⟩
    rw [heq, rtcMatch_of_lookahead ws b r hws hb] at hnone
    exact absurd hnone (by simp)
  · intro hnl
    cases hm : rtcMatch l with
    | none => rfl
    | some p =>
      obtain ⟨b, r⟩ := p
      rcases rtcMatch_split l b r hm with ⟨ws, heq, hws, hb⟩
      have hb' : b = '}' ∨ b = ']' := by simpa using hb
      exact absurd ⟨ws, b, r, heq, hws, hb'⟩ hnl

/-- Modelled from the spec: the trailing-comma rewrite relation. Each comma
followed (through whitespace only) by `}` or `]` is dropped together with
that separating whitespace; every other character — commas not opening such
a span, and all whitespace outside such spans, included — is kept in
place. -/
inductive RtcRel : List Char → List Char → Prop
  | nil : RtcRel [] []
  | keep (c : Char) (l out : List Char) : (c = ',' → ¬ IsTrailingLookahead l) →
      RtcRel l out → RtcRel (c :: l) (c :: out)
  | drop (ws : List Char) (b : Char) (l out : List Char) :
      (∀ c ∈ ws, c.isWhitespace = true) → (b = '}' ∨ b = ']') →
      RtcRel l out → RtcRel (',' :: (ws ++ b :: l)) (b :: out)

theorem removeTrailingCommasGo_rtcRel_bounded (n : Nat) :
    ∀ l : List Char, l.length ≤ n → RtcRel l (removeTrailingCommasGo l) := by
  induction n with
  | zero =>
    intro l hl
    rw [List.length_eq_zero.mp (Nat.le_zero.mp hl)]
    rw [show removeTrailingCommasGo [] = [] from by simp [removeTrailingCommasGo]]
    exact RtcRel.nil
  | succ n ih =>
    intro l hl
    cases l with
    | nil =>
      rw [show removeTrailingCommasGo [] = [] from by simp [removeTrailingCommasGo]]
      exact RtcRel.nil
    | cons c rest =>
      simp only [List.length_cons, Nat.succ_le_succ_iff] at hl
      by_cases hc : (c == ',') = true
      · have hceq : c = ',' := by simpa using hc
        subst hceq
        rw [removeTrailingCommasGo, if_pos hc]
        cases hm : rtcMatch rest with
        | some p =>
          obtain ⟨b, r⟩ := p
          rcases rtcMatch_split rest b r hm with ⟨ws, heq, hws, hb⟩
          have hr : r.length ≤ n :=
            le_trans (Nat.le_of_lt (rtcMatch_length rest b r hm)) hl
          rw [heq]
          exact RtcRel.drop ws b r (removeTrailingCommasGo r) hws
            (by simpa using hb) (ih r hr)
        | none =>
          exact RtcRel.keep ',' rest (removeTrailingCommasGo rest)
            (fun _ => (rtcMatch_none_iff rest).mp hm) (ih rest hl)
      · rw [removeTrailingCommasGo, if_neg hc]
        exact RtcRel.keep c rest (removeTrailingCommasGo rest)
          (fun hceq => absurd (by simp [hceq]) hc) (ih rest hl)

/-- The trailing-comma rewrite realises the span-removal relation on every
input. -/
theorem removeTrailingCommasGo_rtcRel (l : List Char) :
    RtcRel l (removeTrailingCommasGo l) :=
  removeTrailingCommasGo_rtcRel_bounded l.length l le_rfl

theorem stripCommentsGo_sublist_bounded (n : Nat) :
    ∀ (rest prevRev : List Char) (b1 b2 b3 : Bool), rest.length ≤ n →
    (stripCommentsGo prevRev rest b1 b2 b3).Sublist rest := by
  induction n with
  | zero =>
    intro rest prevRev b1 b2 b3 hl
    rw [List.length_eq_zero.mp (Nat.le_zero.mp hl)]
    simp [stripCommentsGo]
  | succ n ih =>
    intro rest prevRev b1 b2 b3 hl
    cases rest with
    | nil => simp [stripCommentsGo]
    | cons c tail =>
      simp only [List.length_cons, Nat.succ_le_succ_iff] at hl
      have htail2 : tail.tail.length ≤ n :=
        le_trans (by simpa using List.length_tail_le tail) hl
      rw [stripCommentsGo]
      by_cases h1 : (!b2 && !b3 && (c == '"')) = true
      · rw [if_pos h1]
        exact List.Sublist.cons₂ c (ih tail _ _ _ _ hl)
      · rw [if_neg h1]
        by_cases h2 : b1 = true
        · rw [if_pos h2]
          exact List.Sublist.cons₂ c (ih tail _ _ _ _ hl)
        · rw [if_neg h2]
          by_cases h3 : (!b2 && !b3 && (c == '/') && (tail.head? == some '/')) = true
          · rw [if_pos h3]
            exact List.Sublist.cons c
              (List.Sublist.trans (ih tail.tail _ _ _ _ htail2) (List.tail_sublist tail))
          · rw [if_neg h3]
            by_cases h4 : (!b2 && !b3 && (c == '/') && (tail.head? == some '*')) = true
            · rw [if_pos h4]
              exact List.Sublist.cons c
                (List.Sublist.trans (ih tail.tail _ _ _ _ htail2) (List.tail_sublist tail))
            · rw [if_neg h4]
              by_cases h5 : b2 = true
              · rw [if_pos h5]
                by_cases h6 : (c == '\n') = true
                · rw [if_pos h6]
                  exact List.Sublist.cons₂ c (ih tail _ _ _ _ hl)
                · rw [if_neg h6]
                  exact List.Sublist.cons c (ih tail _ _ _ _ hl)
              · rw [if_neg h5]
                by_cases h7 : b3 = true
                · rw [if_pos h7]
                  by_cases h8 : (c == '*' && (tail.head? == some '/')) = true
                  · rw [if_pos h8]
                    exact List.Sublist.cons c
                      (List.Sublist.trans (ih tail.tail _ _ _ _ htail2)
                        (List.tail_sublist tail))
                  · rw [if_neg h8]
                    by_cases h9 : (c == '\n') = true
                    · rw [if_pos h9]
                      exact List.Sublist.cons₂ c (ih tail _ _ _ _ hl)
                    · rw [if_neg h9]
                      exact List.Sublist.cons c (ih tail _ _ _ _ hl)
                · rw [if_neg h7]
                  exact List.Sublist.cons₂ c (ih tail _ _ _ _ hl)

theorem removeTrailingCommasGo_sublist_bounded (n : Nat) :
    ∀ l : List Char, l.length ≤ n → (removeTrailingCommasGo l).Sublist l := by
  induction n with
  | zero =>
    intro l hl
    rw [List.length_eq_zero.mp (Nat.le_zero.mp hl)]
    simp [removeTrailingCommasGo]
  | succ n ih =>
    intro l hl
    cases l with
    | nil => simp [removeTrailingCommasGo]
    | cons c rest =>
      simp only [List.length_cons, Nat.succ_le_succ_iff] at hl
      by_cases hc : (c == ',') = true
      · rw [removeTrailingCommasGo, if_pos hc]
        cases hm : rtcMatch rest with
        | some p =>
          obtain ⟨b, r⟩ := p
          rcases rtcMatch_split rest b r hm with ⟨ws, heq, _, _⟩
          have hr : r.length ≤ n :=
            le_trans (Nat.le_of_lt (rtcMatch_length rest b r hm)) hl
          refine List.Sublist.cons c ?_
          rw [heq]
          exact List.Sublist.trans (List.Sublist.cons₂ b (ih r hr))
            (List.sublist_append_right ws (b :: r))
        | none => exact List.Sublist.cons₂ c (ih rest hl)
      · rw [removeTrailingCommasGo, if_neg hc]
        exact List.Sublist.cons₂ c (ih rest hl)

/-- Claim C8 (amended): `stripJsoncComments` preserves every character of its
input outside comments and outside trailing-comma spans. Formally: (1) the
comment phase refines the declarative segmentation `CommentsSpec` — on any
input that decomposes into code characters, string literals (in particular
ones containing `//`), non-comment slashes and `//` / `/* */` comments, it
keeps everything outside the comments verbatim and removes the comments,
keeping only a line comment's terminating newline and a block comment's
interior newlines; (2) the trailing-comma phase realises `RtcRel` on every
input: each comma followed through whitespace by `}` or `]` is dropped
together with that whitespace, and every other character — commas and
whitespace outside such spans included — is kept in place; (3) the two
phases compose to `stripJsoncComments`; (4) the full output is always a
subsequence of the input (nothing is added or reordered). -/
theorem stripJsoncComments_preservation (s : String) (l : List Char) :
    (∀ out : List Char, CommentsSpec s.data out → (stripComments s).data = out)
    ∧ RtcRel l (removeTrailingCommasGo l)
    ∧ (stripJsoncComments s).data = removeTrailingCommasGo (stripComments s).data
    ∧ (stripJsoncComments s).data.Sublist s.data := by
  refine ⟨?_, removeTrailingCommasGo_rtcRel l, rfl, ?_⟩
  · intro out h
    exact stripCommentsGo_spec s.data out h [] (by simp [backslashRun])
  · unfold stripJsoncComments removeTrailingCommas stripComments
    exact List.Sublist.trans
      (removeTrailingCommasGo_sublist_bounded _ _ le_rfl)
      (stripCommentsGo_sublist_bounded s.data.length s.data [] false false false le_rfl)

/-- Counterexample to claim C8 as stated: the input `"[1, ]"` contains no
comment and its space character is not a comma, yet `stripJsoncComments`
removes both the comma *and* the space (`,\s*` before `]`), so a character
outside comments and outside the claim's "trailing-comma positions" (commas
immediately before `}` / `]`) is not preserved. -/
theorem stripJsoncComments_whitespace_counterexample :
    stripJsoncComments "[1, ]" = "[1]"
    ∧ "[1]" ≠ "[1, ]"
    ∧ '/' ∉ "[1, ]".data
    ∧ "[1, ]".data.count ' ' = 1
    ∧ "[1]".data.count ' ' = 0 := by
  refine ⟨?_, by decide, by decide, by decide, by decide⟩
  simp [stripJsoncComments, stripComments, removeTrailingCommas, stripCommentsGo,
    removeTrailingCommasGo, rtcMatch, backslashRun]

/-! ## Concrete instantiations of the theorems with hypotheses -/

/-- Concrete KNN row list for the scoring instantiation: one candidate at
cosine distance 0.38 (similarity 0.62, above the 0.6 gate). -/
def rawW : List RawVec := [⟨"B", 38/100⟩]

def memW : List MemRow := [{ id := "B", content := "x", containerTag := "t" }]

theorem searchMemories_scoring_witness :
    ({ id := "B", content := "x", similarity := 31/50, createdAt := 0 } : SearchResult)
      ∈ searchMemories defaultConfig rawW (some "t") (some "q") (.ok []) none
        (some 0) memW
    ∧ mapGet (buildVectorMap rawW defaultConfig.minVectorSimilarity) "B"
      = some ⟨0, 31/50⟩
    ∧ mapGet (buildBm25Rankings (effectiveBm25Rows (some "q") (.ok []))) "B" = none
    ∧ ({ id := "B", content := "x", similarity := 31/50, createdAt := 0 } : SearchResult).similarity
      = (⟨0, 31/50⟩ : VectorResult).cosineSim := by
  have hmem : ({ id := "B", content := "x", similarity := 31/50, createdAt := 0 } : SearchResult)
      ∈ searchMemories defaultConfig rawW (some "t") (some "q") (.ok []) none
        (some 0) memW := by
    norm_num +decide [searchMemories, rawW, memW, buildVectorMap, buildVectorMapGo,
      mapSet, mapGet, buildBm25Rankings, buildBm25Go, effectiveBm25Rows,
      reciprocalRankFusion, searchCandidateRows, scoreRow, defaultConfig,
      List.insertionSort, List.orderedInsert, RRF_K]
  have hv : mapGet (buildVectorMap rawW defaultConfig.minVectorSimilarity) "B"
      = some ⟨0, 31/50⟩ := by
    norm_num [buildVectorMap, buildVectorMapGo, mapSet, mapGet, rawW, defaultConfig]
  have hb : mapGet (buildBm25Rankings (effectiveBm25Rows (some "q") (.ok []))) "B"
      = none := by
    simp [effectiveBm25Rows, buildBm25Rankings, buildBm25Go, mapGet]
  exact ⟨hmem, hv, hb,
    (searchMemories_scoring defaultConfig rawW (some "t") (some "q") (.ok []) none
      (some 0) memW).2.1 _ hmem ⟨0, 31/50⟩ hv hb⟩

theorem checkDuplicate_protocol_witness :
    defaultConfig.deduplicationEnabled = true
    ∧ findExactDuplicate [{ id := "m1", content := "existing", containerTag := "c" }]
        "existing" "c" = some "m1"
    ∧ checkDuplicate defaultConfig []
        [{ id := "m1", content := "existing", containerTag := "c" }] "existing" "c"
      = { isDuplicate := true, reason := some "exact duplicate",
          existingId := some "m1", similarity := some 1 } :=
  ⟨rfl, by decide,
    ((checkDuplicate_protocol defaultConfig []
      [{ id := "m1", content := "existing", containerTag := "c" }]
      "existing" "c").2.1 rfl "m1" (by decide)).1⟩

/-- Concrete imported chunk for the replace-by-source instantiation. -/
def chunkW : MemRow :=
  { id := "r1", content := "chunk", containerTag := "ct", tags := some "sk" }

theorem replaceImportedChunksForSource_snapshot_witness :
    (∀ recs ∈ ([[chunkW]] : List (List MemRow)), ∀ r ∈ recs,
      r.containerTag = "ct" ∧ r.tags = some "sk")
    ∧ (runImports initDb "ct" "sk" ([] ++ [[chunkW]])).mem.filter
        (fun r => r.containerTag == "ct" && r.tags == some "sk")
      = [chunkW] :=
  ⟨by decide,
    ((replaceImportedChunksForSource_snapshot initDb "ct" "sk").2 []
      [chunkW] (by decide)).1⟩

theorem threeTableSynchronisation_witness :
    memCount (deleteMemory (insertMemory initDb
      { id := "m1", content := "c", containerTag := "t" }) "m1").2 "m1" = 0
    ∧ vecCount (deleteMemory (insertMemory initDb
      { id := "m1", content := "c", containerTag := "t" }) "m1").2 "m1" = 0
    ∧ ftsCount (deleteMemory (insertMemory initDb
      { id := "m1", content := "c", containerTag := "t" }) "m1").2 "m1" = 0 :=
  (threeTableSynchronisation
    (insertMemory initDb { id := "m1", content := "c", containerTag := "t" })
    (Relation.ReflTransGen.single
      (DbStep.insert initDb { id := "m1", content := "c", containerTag := "t" }
        (by simp [initDb])))).2.2 "m1"

theorem containerTag_shapes_witness :
    getNamedContainerTag "React Router" = some "memo_container_react-router"
    ∧ "memo_container_react-router" = "memo_container_" ++ slugify "React Router"
    ∧ slugify "React Router" ≠ "" :=
  ⟨by decide,
    ((containerTag_shapes (fun _ => "") none "/").2 "React Router"
      "memo_container_react-router" (by decide)).1,
    ((containerTag_shapes (fun _ => "") none "/").2 "React Router"
      "memo_container_react-router" (by decide)).2.1⟩

theorem runAdds_distinctContentsPerContainer_witness :
    defaultConfig.deduplicationEnabled = true
    ∧ distinctContentsPerContainer initDb.mem
    ∧ distinctContentsPerContainer (runAdds defaultConfig initDb
        [{ id := "a1", content := "same", containerTag := "c" },
         { id := "a2", content := "same", containerTag := "c" }]).mem :=
  ⟨rfl, by decide,
    runAdds_distinctContentsPerContainer defaultConfig rfl initDb (by decide)
      [{ id := "a1", content := "same", containerTag := "c" },
       { id := "a2", content := "same", containerTag := "c" }]⟩

theorem stripJsoncComments_preservation_witness :
    CommentsSpec "[\"a//b\", // c\n]".data "[\"a//b\", \n]".data
    ∧ (stripComments "[\"a//b\", // c\n]").data = "[\"a//b\", \n]".data
    ∧ RtcRel "[1 , 2]".data (removeTrailingCommasGo "[1 , 2]".data) := by
  have hstr : StrBody ['a', '/', '/', 'b'] :=
    StrBody.chr 'a' _ (by decide) (by decide)
      (StrBody.chr '/' _ (by decide) (by decide)
        (StrBody.chr '/' _ (by decide) (by decide)
          (StrBody.chr 'b' _ (by decide) (by decide) StrBody.nil)))
  have hd : CommentsSpec "[\"a//b\", // c\n]".data "[\"a//b\", \n]".data := by
    show CommentsSpec
      ('[' :: '"' :: ('a' :: '/' :: '/' :: 'b' ::
        ('"' :: ',' :: ' ' :: '/' :: '/' :: ' ' :: 'c' :: '\n' :: ']' :: [])))
      ('[' :: '"' :: ('a' :: '/' :: '/' :: 'b' ::
        ('"' :: ',' :: ' ' :: '\n' :: ']' :: [])))
    refine CommentsSpec.plain '[' _ _ (by decide) (by decide) (by decide) ?_
    refine CommentsSpec.str ['a', '/', '/', 'b']
      (',' :: ' ' :: '/' :: '/' :: ' ' :: 'c' :: '\n' :: ']' :: [])
      (',' :: ' ' :: '\n' :: ']' :: []) hstr ?_
    refine CommentsSpec.plain ',' _ _ (by decide) (by decide) (by decide) ?_
    refine CommentsSpec.plain ' ' _ _ (by decide) (by decide) (by decide) ?_
    refine CommentsSpec.lineComment [' ', 'c'] (']' :: []) (']' :: [])
      (by decide) ?_
    exact CommentsSpec.plain ']' [] [] (by decide) (by decide) (by decide)
      CommentsSpec.nil
  exact ⟨hd, (stripJsoncComments_preservation "[\"a//b\", // c\n]" []).1 _ hd,
    (stripJsoncComments_preservation "[\"a//b\", // c\n]" "[1 , 2]".data).2.1⟩

end Memo
